import Mathlib

/-!
A shallow embedding of the minesweeper board engine found in `src/main.rs`
(module `board`).  Every definition below mirrors a Rust item of the same
name.  Randomness in the source is made explicit:

* `Board.new` takes the already-shuffled `mine_values` list (the source
  builds `[true; mine_num] ++ [false; total - mine_num]` and shuffles it);
  theorems about constructed boards therefore carry the hypotheses
  `mine_values.length = width * height` and `mine_values.count true = mine_num`.
* `Board.uncover_tile` takes a number `r`; the source shuffles the list of
  non-mine indices and takes element 0, which reaches exactly the elements
  of that list, so the model picks element `r % length`.

Rust panics (`unwrap`, direct indexing out of range, `[0]` on an empty
vector) are modelled by returning `none` from the fallible operations.
-/

namespace Minesweeper

inductive State where
  | Uncovered
  | Covered
  | Flagged
  | FlagRevealed
deriving DecidableEq, Repr

inductive PushState where
  | Uncover
  | Flag
deriving DecidableEq, Repr

structure Tile where
  state : State
  mine : Bool
  mines_surrounding : Nat
deriving DecidableEq, Repr

structure Board where
  tiles : List Tile
  won : Option Bool
  width : Nat
  mine_total : Nat
  flag_total : Nat
  flag_correct : Nat
  first_uncover : Bool
deriving DecidableEq, Repr

def get_manhattan : List (Int × Int) :=
  [(-1, -1), (-1, 0), (-1, 1), (0, -1), (0, 1), (1, -1), (1, 0), (1, 1)]

def get_2d (i width : Nat) : Nat × Nat := (i % width, i / width)

def get_1d (x y width : Nat) : Nat := y * width + x

/-- Mirrors the Rust `get_1d_manhattan`: the filter bounds `x` on both sides
but bounds `y` only below; a coordinate below the grid yields an index
`≥ width * height`, which every caller treats as absent via `get`. -/
def get_1d_manhattan (i width : Nat) : List Nat :=
  let p := get_2d i width
  (get_manhattan.map (fun d => (d.1 + (p.1 : Int), d.2 + (p.2 : Int)))).filterMap
    (fun q => if (width : Int) > q.1 ∧ 0 ≤ q.1 ∧ 0 ≤ q.2 then
        some (get_1d q.1.toNat q.2.toNat width) else none)

def Tile.new (mine : Bool) (mines_surrounding : Nat) : Tile :=
  { state := State.Covered, mine := mine, mines_surrounding := mines_surrounding }

/-- The adjacency count computed for position `i` inside `Board::new`:
Moore-neighbour indices of `i`, looked up in `mine_values` (absent indices
count zero), summed. -/
def mineTotalAt (mine_values : List Bool) (width i : Nat) : Nat :=
  ((get_1d_manhattan i width).filterMap (fun n => mine_values[n]?)).foldl
    (fun t n => t + (if n then 1 else 0)) 0

def Board.new (width height mine_num : Nat) (mine_values : List Bool) :
    Except String Board :=
  let total := width * height
  if total < mine_num then
    Except.error "There cannot be more mines then there are tiles"
  else if total = mine_num then
    Except.error "At least one tile must be safe"
  else
    let mine_totals : List Nat :=
      (List.range mine_values.length).map (fun i => mineTotalAt mine_values width i)
    let tiles := (mine_values.zip mine_totals).map (fun p => Tile.new p.1 p.2)
    Except.ok { tiles := tiles, won := none, width := width, mine_total := mine_num,
                flag_total := 0, flag_correct := 0, first_uncover := true }

/-- In-place update of the tile at index `i`; the Rust call sites index the
vector directly (a panic when out of range), but every call site has already
established `i < tiles.length`, so the out-of-range case never arises. -/
def modifyTile (ts : List Tile) (i : Nat) (f : Tile → Tile) : List Tile :=
  match ts[i]? with
  | some t => ts.set i (f t)
  | none => ts

def Board.get_tile (b : Board) (x y : Nat) : Option Tile :=
  b.tiles[get_1d x y b.width]?

def Board.set_tile_state (b : Board) (x y : Nat) (update : State) : Board :=
  { b with tiles := (modifyTile b.tiles (get_1d x y b.width)
      (fun t => { t with state := update })) }

def Board.end_game (b : Board) (won : Bool) : Board :=
  { b with won := some won,
           tiles := b.tiles.map (fun t =>
             { t with state := if t.state = State.Flagged
                               then State.FlagRevealed else State.Uncovered }) }

/-- First marking pass of the `clear_zeros` loop body: every index on the
worklist is set `Uncovered`. -/
def markUncovered (ts : List Tile) (idxs : List Nat) : List Tile :=
  idxs.foldl (fun acc t => modifyTile acc t (fun tl => { tl with state := State.Uncovered })) ts

/-- Mirrors itertools `unique()`: duplicates removed, first occurrence kept. -/
def uniqueList (l : List Nat) : List Nat :=
  l.foldl (fun acc x => if x ∈ acc then acc else acc ++ [x]) []

/-- The deduplicated covered neighbourhood of the worklist, computed after
the marking pass. -/
def surroundingsOf (width : Nat) (ts : List Tile) (working : List Nat) : List Nat :=
  (uniqueList ((working.map (fun i => get_1d_manhattan i width)).flatten)).filter
    (fun i => match ts[i]? with
      | some n => decide (n.state = State.Covered)
      | none => false)

/-- One step of the second pass of the loop body: a zero-adjacency index is
appended to the next worklist, any other is uncovered immediately. -/
def procStep (p : List Nat × List Tile) (t : Nat) : List Nat × List Tile :=
  if ((p.2[t]?).map Tile.mines_surrounding).getD 0 = 0 then
    (p.1 ++ [t], p.2)
  else
    (p.1, modifyTile p.2 t (fun tl => { tl with state := State.Uncovered }))

/-- Second pass of the loop body: zero-adjacency members of `surr` become the
next worklist, the others are uncovered immediately. -/
def processSurroundings (ts : List Tile) (surr : List Nat) : List Nat × List Tile :=
  surr.foldl procStep ([], ts)

/-- The `while !working.is_empty()` loop of `clear_zeros`, with explicit fuel;
`clear_zeros` supplies fuel `tiles.length + 2`, which is proved sufficient. -/
def clearZerosLoop (width : Nat) : Nat → List Tile → List Nat → List Tile
  | _, ts, [] => ts
  | 0, ts, _ => ts
  | fuel + 1, ts, working =>
    let ts1 := markUncovered ts working
    let surr := surroundingsOf width ts1 working
    let pr := processSurroundings ts1 surr
    clearZerosLoop width fuel pr.2 pr.1

def Board.clear_zeros (b : Board) (starting_pos : Nat × Nat) : Board :=
  let s := get_1d starting_pos.1 starting_pos.2 b.width
  { b with tiles := clearZerosLoop b.width (b.tiles.length + 2) b.tiles [s] }

/-- The tail of `uncover_tile` after the mine branches: clear
`first_uncover`, mark the tile uncovered, flood-fill on a zero count. -/
def Board.finish_uncover (b : Board) (tile_pos x y : Nat) : Board :=
  let b1 : Board :=
    { b with first_uncover := false,
             tiles := (modifyTile b.tiles tile_pos
               (fun t => { t with state := State.Uncovered })) }
  match b1.tiles[tile_pos]? with
  | some t => if t.mines_surrounding = 0 then b1.clear_zeros (x, y) else b1
  | none => b1

def Board.uncover_tile (b : Board) (x y : Nat) (r : Nat) : Option Board :=
  let tile_pos := get_1d x y b.width
  match b.tiles[tile_pos]? with
  | none => none
  | some tile =>
    if tile.mine ∧ b.first_uncover then
      let ts1 := modifyTile b.tiles tile_pos (fun t => { t with mine := false })
      let ts2 := (get_1d_manhattan tile_pos b.width).foldl
        (fun acc s => modifyTile acc s
          (fun t => { t with mines_surrounding := t.mines_surrounding - 1 })) ts1
      let possible_replacements := (ts2.enum.filter (fun p => ! p.2.mine)).map Prod.fst
      match possible_replacements[r % possible_replacements.length]? with
      | none => none
      | some replacement =>
        let ts3 := modifyTile ts2 replacement (fun t => { t with mine := true })
        let ts4 := (get_1d_manhattan replacement b.width).foldl
          (fun acc s => modifyTile acc s
            (fun t => { t with mines_surrounding := t.mines_surrounding + 1 })) ts3
        some (Board.finish_uncover { b with tiles := ts4 } tile_pos x y)
    else if tile.mine then
      some (b.end_game false)
    else
      some (Board.finish_uncover b tile_pos x y)

/-- One step of the chording loop inside `push_state`: a still-covered
neighbour is uncovered via `uncover_tile`, any other neighbour is skipped. -/
def chordStep (r : Nat) (ob : Option Board) (coord : Nat) : Option Board :=
  match ob with
  | none => none
  | some bb =>
    match bb.tiles[coord]? with
    | some t =>
      if t.state = State.Covered then
        let coords := get_2d coord bb.width
        bb.uncover_tile coords.1 coords.2 r
      else some bb
    | none => some bb

/-- The body of `push_state` up to (and excluding) the win check: fetch the
tile (`unwrap` modelled as `none` on failure) and dispatch on
`(state, update)`. -/
def Board.match_step (b : Board) (x y : Nat) (update : PushState) (r : Nat) :
    Option Board :=
  match b.get_tile x y with
  | none => none
  | some old_tile =>
    match old_tile.state, update with
    | State.Covered, PushState.Uncover => b.uncover_tile x y r
    | State.Uncovered, _ =>
      let manhattan_tile_coords := get_1d_manhattan (get_1d x y b.width) b.width
      let flags_surrounding := (manhattan_tile_coords.filterMap
          (fun i => b.tiles[i]?)).foldl
        (fun t i => t + (if i.state = State.Flagged then 1 else 0)) 0
      if flags_surrounding = old_tile.mines_surrounding then
        manhattan_tile_coords.foldl (chordStep r) (some b)
      else some b
    | State.Flagged, PushState.Flag =>
      let b1 : Board := { b with flag_total := b.flag_total - 1 }
      let b2 := b1.set_tile_state x y State.Covered
      match b2.get_tile x y with
      | some t => some (if t.mine then { b2 with flag_correct := b2.flag_correct - 1 } else b2)
      | none => none
    | State.Covered, PushState.Flag =>
      if b.flag_total < b.mine_total then
        let b1 : Board := { b with flag_total := b.flag_total + 1 }
        let b2 := b1.set_tile_state x y State.Flagged
        match b2.get_tile x y with
        | some t => some (if t.mine then { b2 with flag_correct := b2.flag_correct + 1 } else b2)
        | none => none
      else some b
    | _, _ => some b

/-- The count the source calls `uncover_correct`. -/
def uncoverCorrect (b : Board) : Nat :=
  (b.tiles.filter (fun i => decide (i.state = State.Uncovered) && ! i.mine)).length

/-- The trailing win check of `push_state`. -/
def Board.win_check (b : Board) : Board :=
  let uncover_correct := uncoverCorrect b
  if b.won = none then
    if b.flag_correct = b.mine_total ∨ uncover_correct = b.tiles.length - b.mine_total
    then b.end_game true
    else b
  else b

def Board.push_state (b : Board) (x y : Nat) (update : PushState) (r : Nat) :
    Option Board :=
  if b.won.isSome then some b
  else (b.match_step x y update r).map Board.win_check

/-! ## Spec-side definitions and proof-level notions -/

/-- The state stored at index `i`, if any. -/
def tileStateAt (ts : List Tile) (i : Nat) : Option State := (ts[i]?).map Tile.state

/-- The adjacency count stored at index `i`, if any. -/
def tileCountAt (ts : List Tile) (i : Nat) : Option Nat := (ts[i]?).map Tile.mines_surrounding

/-- Number of `Covered` tiles (the termination measure of the flood fill). -/
def coveredCount (ts : List Tile) : Nat := ts.countP (fun t => decide (t.state = State.Covered))

/-- Modelled from the spec: the true Moore-neighbour mine count of position
`i`, with the neighbourhood clipped at all four grid edges
("the ≤8 cells at Chebyshev distance 1, clipped at grid edges"). -/
def mooreMineCount (mine_values : List Bool) (width height i : Nat) : Nat :=
  get_manhattan.countP (fun d =>
    let x : Int := (i % width : Nat) + d.1
    let y : Int := (i / width : Nat) + d.2
    decide (0 ≤ x ∧ x < width ∧ 0 ≤ y ∧ y < height) &&
      ((mine_values[(y * width + x).toNat]?).getD false))

/-- The state-blind part of a tile: its mine flag and stored count. -/
def mineCountOf (t : Tile) : Bool × Nat := (t.mine, t.mines_surrounding)

/-- The number of mines actually stored on the grid that surround `j`,
looking tiles up exactly the way the engine does. -/
def trueMineCount (ts : List Tile) (width j : Nat) : Nat :=
  ((get_1d_manhattan j width).filterMap (fun n => ts[n]?)).countP Tile.mine

/-- The adjacency invariant on a raw grid: every stored `mines_surrounding`
equals the true Moore-neighbour mine count of its tile. -/
def adjOK (ts : List Tile) (w : Nat) : Prop :=
  ∀ j t, ts[j]? = some t → t.mines_surrounding = trueMineCount ts w j

/-- The adjacency invariant of a board. -/
def adjCorrect (b : Board) : Prop := adjOK b.tiles b.width

/-- The set of tiles the flood fill reaches from the seed list: the seeds,
plus, recursively, every still-`Covered` Moore neighbour of a reached
zero-adjacency tile that is a seed or still `Covered`.  The non-seed
members with non-zero counts are exactly the "border" of the zero region. -/
inductive Close (ts : List Tile) (width : Nat) (seeds : List Nat) : Nat → Prop where
  | seed (t : Nat) (ht : t ∈ seeds) : Close ts width seeds t
  | step (t u : Nat) (hc : Close ts width seeds t)
      (hz : tileCountAt ts t = some 0)
      (hexp : t ∈ seeds ∨ tileStateAt ts t = some State.Covered)
      (hu : u ∈ get_1d_manhattan t width)
      (hcov : tileStateAt ts u = some State.Covered) : Close ts width seeds u

/-- Boards reachable by the engine: a freshly constructed board (for any
shuffle outcome), or the successful application of any command to a
reachable board (for any random outcome `r`). -/
inductive Reachable : Board → Prop where
  | base (w h M : Nat) (mv : List Bool) (b : Board) (hlen : mv.length = w * h)
      (hcnt : mv.count true = M) (hok : Board.new w h M mv = Except.ok b) :
      Reachable b
  | step (b : Board) (x y : Nat) (u : PushState) (r : Nat) (b' : Board)
      (hb : Reachable b) (hp : b.push_state x y u r = some b') : Reachable b'

/-- A concrete 6×1 board (the output of
`Board.new 6 1 2 [false, false, false, true, false, true]`): mines on cells
3 and 5, adjacency counts `[0, 0, 1, 0, 2, 0]`. -/
def c6Board : Board :=
  { tiles := [⟨State.Covered, false, 0⟩, ⟨State.Covered, false, 0⟩,
      ⟨State.Covered, false, 1⟩, ⟨State.Covered, true, 0⟩,
      ⟨State.Covered, false, 2⟩, ⟨State.Covered, true, 0⟩],
    won := none, width := 6, mine_total := 2, flag_total := 0,
    flag_correct := 0, first_uncover := true }

/-- The board obtained from `c6Board` by revealing cell `(0, 0)`: the flood
fill uncovers exactly cells 0, 1 (the zero region) and 2 (its border). -/
def c6Board' : Board :=
  { tiles := [⟨State.Uncovered, false, 0⟩, ⟨State.Uncovered, false, 0⟩,
      ⟨State.Uncovered, false, 1⟩, ⟨State.Covered, true, 0⟩,
      ⟨State.Covered, false, 2⟩, ⟨State.Covered, true, 0⟩],
    won := none, width := 6, mine_total := 2, flag_total := 0,
    flag_correct := 0, first_uncover := false }

/-! ## Basic lemmas about the list helpers -/

theorem modifyTile_length (ts : List Tile) (i : Nat) (f : Tile → Tile) :
    (modifyTile ts i f).length = ts.length := by
  rw [modifyTile]
  split <;> simp

theorem getElem?_modifyTile (ts : List Tile) (i j : Nat) (f : Tile → Tile) :
    (modifyTile ts i f)[j]? = if i = j then (ts[i]?).map f else ts[j]? := by
  rw [modifyTile]
  split
  · next t h =>
    have hi : i < ts.length := (List.getElem?_eq_some_iff.mp h).1
    rw [List.getElem?_set, h]
    simp [hi]
  · next h =>
    split
    · next hij => subst hij; simp [h]
    · rfl

theorem getElem?_zipWith (l : List α) (l' : List β) (i : Nat) :
    (l.zip l')[i]? = (l[i]?).bind (fun a => (l'[i]?).map (fun b => (a, b))) := by
  induction l generalizing l' i with
  | nil => simp
  | cons a as ih =>
    cases l' with
    | nil => simp
    | cons b bs =>
      cases i with
      | zero => simp [List.zip_cons_cons]
      | succ n => simpa [List.zip_cons_cons] using ih bs n

theorem getElem?_foldl_modify_not_mem (g : Tile → Tile) (idxs : List Nat)
    (ts : List Tile) (j : Nat) (hj : j ∉ idxs) :
    (idxs.foldl (fun acc s => modifyTile acc s g) ts)[j]? = ts[j]? := by
  induction idxs generalizing ts with
  | nil => rfl
  | cons a rest ih =>
    have hja : j ≠ a := fun h => hj (h ▸ List.mem_cons_self a rest)
    have hjr : j ∉ rest := fun h => hj (List.mem_cons_of_mem a h)
    rw [List.foldl_cons, ih _ hjr, getElem?_modifyTile, if_neg (fun h => hja h.symm)]

theorem getElem?_foldl_modify_nodup (g : Tile → Tile) (idxs : List Nat)
    (ts : List Tile) (j : Nat) (hnd : idxs.Nodup) :
    (idxs.foldl (fun acc s => modifyTile acc s g) ts)[j]? =
      if j ∈ idxs then (ts[j]?).map g else ts[j]? := by
  induction idxs generalizing ts with
  | nil => simp
  | cons a rest ih =>
    rw [List.foldl_cons]
    rcases List.nodup_cons.mp hnd with ⟨hnm, hnd'⟩
    by_cases hja : j = a
    · subst hja
      rw [getElem?_foldl_modify_not_mem g rest _ j hnm, getElem?_modifyTile,
        if_pos rfl, if_pos (List.mem_cons_self j rest)]
    · rw [ih _ hnd', getElem?_modifyTile, if_neg (show ¬ a = j by omega)]
      simp [List.mem_cons, hja]

theorem getElem?_foldl_modify_idem (g : Tile → Tile) (hg : ∀ t, g (g t) = g t)
    (idxs : List Nat) (ts : List Tile) (j : Nat) :
    (idxs.foldl (fun acc s => modifyTile acc s g) ts)[j]? =
      if j ∈ idxs then (ts[j]?).map g else ts[j]? := by
  induction idxs generalizing ts with
  | nil => simp
  | cons a rest ih =>
    rw [List.foldl_cons, ih]
    by_cases hja : j = a
    · subst hja
      rw [getElem?_modifyTile, if_pos rfl]
      by_cases hjr : j ∈ rest
      · rw [if_pos hjr, if_pos (List.mem_cons_self j rest)]
        cases ts[j]? <;> simp [hg]
      · simp [hjr, List.mem_cons]
    · rw [getElem?_modifyTile, if_neg (show ¬ a = j by omega)]
      simp [List.mem_cons, hja]

theorem foldl_modify_length (g : Tile → Tile) (idxs : List Nat) (ts : List Tile) :
    (idxs.foldl (fun acc s => modifyTile acc s g) ts).length = ts.length := by
  induction idxs generalizing ts with
  | nil => rfl
  | cons a rest ih => rw [List.foldl_cons, ih, modifyTile_length]

/-! ## Length and field preservation -/

theorem markUncovered_length (ts : List Tile) (idxs : List Nat) :
    (markUncovered ts idxs).length = ts.length :=
  foldl_modify_length _ idxs ts

theorem procStep_snd_length (p : List Nat × List Tile) (t : Nat) :
    ((procStep p t).2).length = p.2.length := by
  rw [procStep]
  split
  · rfl
  · exact modifyTile_length ..

theorem foldl_procStep_snd_length (surr : List Nat) :
    ∀ p : List Nat × List Tile, ((surr.foldl procStep p).2).length = p.2.length := by
  induction surr with
  | nil => intro p; rfl
  | cons a rest ih => intro p; rw [List.foldl_cons, ih, procStep_snd_length]

theorem clearZerosLoop_length (width : Nat) (fuel : Nat) :
    ∀ (ts : List Tile) (working : List Nat),
      (clearZerosLoop width fuel ts working).length = ts.length := by
  induction fuel with
  | zero => intro ts working; cases working <;> rfl
  | succ n ih =>
    intro ts working
    cases working with
    | nil => rfl
    | cons a rest =>
      simp only [clearZerosLoop]
      rw [ih, processSurroundings, foldl_procStep_snd_length, markUncovered_length]

theorem Board.clear_zeros_won (b : Board) (sp : Nat × Nat) :
    (b.clear_zeros sp).won = b.won := rfl

theorem Board.clear_zeros_length (b : Board) (sp : Nat × Nat) :
    (b.clear_zeros sp).tiles.length = b.tiles.length :=
  clearZerosLoop_length ..

theorem Board.finish_uncover_fields (b : Board) (p x y : Nat) :
    (b.finish_uncover p x y).won = b.won ∧
    (b.finish_uncover p x y).width = b.width ∧
    (b.finish_uncover p x y).mine_total = b.mine_total ∧
    (b.finish_uncover p x y).flag_total = b.flag_total ∧
    (b.finish_uncover p x y).flag_correct = b.flag_correct ∧
    (b.finish_uncover p x y).tiles.length = b.tiles.length := by
  simp only [Board.finish_uncover]
  split
  · split
    · refine ⟨rfl, rfl, rfl, rfl, rfl, ?_⟩
      rw [Board.clear_zeros_length]
      exact modifyTile_length ..
    · exact ⟨rfl, rfl, rfl, rfl, rfl, modifyTile_length ..⟩
  · exact ⟨rfl, rfl, rfl, rfl, rfl, modifyTile_length ..⟩

theorem Board.finish_uncover_won (b : Board) (p x y : Nat) :
    (b.finish_uncover p x y).won = b.won := (b.finish_uncover_fields p x y).1

theorem Board.end_game_won (b : Board) (w : Bool) : (b.end_game w).won = some w := rfl

theorem Board.end_game_fields (b : Board) (w : Bool) :
    (b.end_game w).width = b.width ∧ (b.end_game w).mine_total = b.mine_total ∧
    (b.end_game w).flag_total = b.flag_total ∧
    (b.end_game w).flag_correct = b.flag_correct ∧
    (b.end_game w).tiles.length = b.tiles.length :=
  ⟨rfl, rfl, rfl, rfl, List.length_map ..⟩

theorem Board.uncover_tile_fields {b b' : Board} {x y r : Nat}
    (h : b.uncover_tile x y r = some b') :
    b'.width = b.width ∧ b'.mine_total = b.mine_total ∧ b'.flag_total = b.flag_total ∧
    b'.flag_correct = b.flag_correct ∧ b'.tiles.length = b.tiles.length := by
  simp only [Board.uncover_tile] at h
  split at h
  · cases h
  · split at h
    · split at h
      · cases h
      · cases h
        obtain ⟨-, h1, h2, h3, h4, h5⟩ := Board.finish_uncover_fields
          { b with tiles := _ } _ _ _
        refine ⟨h1, h2, h3, h4, ?_⟩
        rw [h5]
        show (List.foldl _ (modifyTile (List.foldl _ (modifyTile b.tiles _ _) _) _ _) _).length
          = b.tiles.length
        rw [foldl_modify_length, modifyTile_length, foldl_modify_length, modifyTile_length]
    · split at h
      · cases h
        obtain ⟨h1, h2, h3, h4, h5⟩ := Board.end_game_fields b false
        exact ⟨h1, h2, h3, h4, h5⟩
      · cases h
        obtain ⟨-, h1, h2, h3, h4, h5⟩ := Board.finish_uncover_fields b _ x y
        exact ⟨h1, h2, h3, h4, h5⟩

theorem Board.uncover_tile_won {b b' : Board} {x y r : Nat}
    (h : b.uncover_tile x y r = some b') : b'.won = b.won ∨ b'.won = some false := by
  simp only [Board.uncover_tile] at h
  split at h
  · cases h
  · split at h
    · split at h
      · cases h
      · cases h
        exact Or.inl (Board.finish_uncover_won _ _ _ _)
    · split at h
      · cases h
        exact Or.inr rfl
      · cases h
        exact Or.inl (Board.finish_uncover_won _ _ _ _)

theorem Board.uncover_tile_first_true_won {b b' : Board} {x y r : Nat}
    (hfu : b.first_uncover = true) (h : b.uncover_tile x y r = some b') :
    b'.won = b.won := by
  simp only [Board.uncover_tile] at h
  split at h
  · cases h
  · split at h
    · split at h
      · cases h
      · cases h
        exact Board.finish_uncover_won _ _ _ _
    · next hcond =>
      split at h
      · next hmine => exact absurd ⟨hmine, hfu⟩ hcond
      · cases h
        exact Board.finish_uncover_won _ _ _ _

/-! ## The chording fold -/

theorem foldl_chordStep_none (r : Nat) (coords : List Nat) :
    coords.foldl (chordStep r) none = none := by
  induction coords with
  | nil => rfl
  | cons a rest ih => rw [List.foldl_cons]; exact ih

theorem chordStep_cases {r : Nat} {bb b2 : Board} {c : Nat}
    (h : chordStep r (some bb) c = some b2) :
    b2 = bb ∨ bb.uncover_tile (get_2d c bb.width).1 (get_2d c bb.width).2 r = some b2 := by
  simp only [chordStep] at h
  split at h
  · split at h
    · exact Or.inr h
    · cases h; exact Or.inl rfl
  · cases h; exact Or.inl rfl

theorem foldl_chordStep_inv (r : Nat) (P : Board → Prop)
    (hstep : ∀ bb c b2, P bb → chordStep r (some bb) c = some b2 → P b2)
    (coords : List Nat) :
    ∀ (bb : Board) (b' : Board), P bb →
      coords.foldl (chordStep r) (some bb) = some b' → P b' := by
  induction coords with
  | nil => intro bb b' hP h; cases h; exact hP
  | cons a rest ih =>
    intro bb b' hP h
    rw [List.foldl_cons] at h
    cases h1 : chordStep r (some bb) a with
    | none => rw [h1, foldl_chordStep_none] at h; cases h
    | some b2 =>
      rw [h1] at h
      exact ih b2 b' (hstep bb a b2 hP h1) h

/-! ## `match_step`, `win_check`, `push_state` -/

theorem Board.match_step_won {b b1 : Board} {x y : Nat} {u : PushState} {r : Nat}
    (hwon : b.won = none) (h : b.match_step x y u r = some b1) :
    b1.won = none ∨ b1.won = some false := by
  simp only [Board.match_step] at h
  split at h
  · cases h
  · split at h
    · rcases Board.uncover_tile_won h with h' | h'
      · rw [hwon] at h'; exact Or.inl h'
      · exact Or.inr h'
    · split at h
      · refine foldl_chordStep_inv r (fun bb => bb.won = none ∨ bb.won = some false)
          (fun bb c b2 hP hs => ?_) _ b b1 (Or.inl hwon) h
        rcases chordStep_cases hs with rfl | hu
        · exact hP
        · rcases Board.uncover_tile_won hu with h' | h'
          · rw [h']; exact hP
          · exact Or.inr h'
      · cases h; exact Or.inl hwon
    · split at h
      · cases h
        left
        split <;> exact hwon
      · cases h
    · split at h
      · split at h
        · cases h
          left
          split <;> exact hwon
        · cases h
      · cases h; exact Or.inl hwon
    · cases h; exact Or.inl hwon

theorem Board.match_step_dims {b b1 : Board} {x y : Nat} {u : PushState} {r : Nat}
    (h : b.match_step x y u r = some b1) :
    b1.width = b.width ∧ b1.mine_total = b.mine_total ∧
    b1.tiles.length = b.tiles.length := by
  simp only [Board.match_step] at h
  split at h
  · cases h
  · split at h
    · obtain ⟨h1, h2, -, -, h5⟩ := Board.uncover_tile_fields h
      exact ⟨h1, h2, h5⟩
    · split at h
      · refine foldl_chordStep_inv r
          (fun bb => bb.width = b.width ∧ bb.mine_total = b.mine_total ∧
            bb.tiles.length = b.tiles.length)
          (fun bb c b2 hP hs => ?_) _ b b1 ⟨rfl, rfl, rfl⟩ h
        rcases chordStep_cases hs with rfl | hu
        · exact hP
        · obtain ⟨h1, h2, -, -, h5⟩ := Board.uncover_tile_fields hu
          exact ⟨h1.trans hP.1, h2.trans hP.2.1, h5.trans hP.2.2⟩
      · cases h; exact ⟨rfl, rfl, rfl⟩
    · split at h
      · cases h
        constructor
        · split <;> rfl
        constructor
        · split <;> rfl
        · split <;> exact modifyTile_length ..
      · cases h
    · split at h
      · split at h
        · cases h
          constructor
          · split <;> rfl
          constructor
          · split <;> rfl
          · split <;> exact modifyTile_length ..
        · cases h
      · cases h; exact ⟨rfl, rfl, rfl⟩
    · cases h; exact ⟨rfl, rfl, rfl⟩

theorem Board.win_check_eq (b : Board) :
    b.win_check = if b.won = none then
      (if b.flag_correct = b.mine_total ∨ uncoverCorrect b = b.tiles.length - b.mine_total
       then b.end_game true else b) else b := rfl

theorem Board.win_check_won_cases {b : Board} (h : b.won = none) :
    (b.win_check).won = none ∨ (b.win_check).won = some true := by
  rw [Board.win_check_eq, if_pos h]
  split
  · exact Or.inr rfl
  · exact Or.inl h

theorem Board.win_check_wins {b : Board} (h : b.won = none)
    (hc : b.flag_correct = b.mine_total ∨
      uncoverCorrect b = b.tiles.length - b.mine_total) :
    (b.win_check).won = some true := by
  rw [Board.win_check_eq, if_pos h, if_pos hc]
  rfl

theorem Board.push_state_of_none {b : Board} (h : b.won = none)
    (x y : Nat) (u : PushState) (r : Nat) :
    b.push_state x y u r = (b.match_step x y u r).map Board.win_check := by
  rw [Board.push_state, h]
  rfl

theorem Board.push_state_of_some {b : Board} (h : b.won.isSome)
    (x y : Nat) (u : PushState) (r : Nat) :
    b.push_state x y u r = some b := by
  rw [Board.push_state, if_pos h]

/-! ## Characterisation of `Board.new` -/

theorem Board.new_ok {w h M : Nat} {mv : List Bool} {b : Board}
    (hb : Board.new w h M mv = Except.ok b) :
    M < w * h ∧ b.won = none ∧ b.width = w ∧ b.mine_total = M ∧ b.flag_total = 0 ∧
    b.flag_correct = 0 ∧ b.first_uncover = true ∧ b.tiles.length = mv.length ∧
    ∀ i : Nat, b.tiles[i]? = (mv[i]?).map (fun m => Tile.new m (mineTotalAt mv w i)) := by
  simp only [Board.new] at hb
  split at hb
  · exact absurd hb (by simp)
  · split at hb
    · exact absurd hb (by simp)
    · next h1 h2 =>
      have hM : M < w * h := by omega
      obtain rfl : _ = b := (Except.ok.injEq _ _).mp hb
      refine ⟨hM, rfl, rfl, rfl, rfl, rfl, rfl, by simp, fun i => ?_⟩
      rw [List.getElem?_map, getElem?_zipWith, List.getElem?_map]
      by_cases hi : i < mv.length
      · rw [List.getElem?_range hi]
        simp [List.getElem?_eq_getElem hi]
      · rw [List.getElem?_eq_none (le_of_not_lt hi),
          List.getElem?_eq_none (by simpa using le_of_not_lt hi)]
        rfl

theorem Board.new_error {w h M : Nat} {mv : List Bool}
    (hM : w * h ≤ M) : ∃ e, Board.new w h M mv = Except.error e := by
  simp only [Board.new]
  rcases lt_or_eq_of_le hM with hlt | heq
  · exact ⟨_, by rw [if_pos hlt]⟩
  · exact ⟨_, by rw [if_neg (by omega), if_pos heq]⟩

/-! ## Index arithmetic and mine lookup helpers -/

theorem get_1d_lt {x y w h : Nat} (hx : x < w) (hy : y < h) : get_1d x y w < w * h := by
  have h1 : y * w + x < (y + 1) * w := by
    have : (y + 1) * w = y * w + w := by ring
    omega
  have h2 : (y + 1) * w ≤ h * w := Nat.mul_le_mul_right w hy
  have h3 : h * w = w * h := Nat.mul_comm h w
  unfold get_1d
  omega

theorem getElem?_false_of_count {mv : List Bool} (hcnt : mv.count true = 0)
    {i : Nat} (hi : i < mv.length) : mv[i]? = some false := by
  rw [List.getElem?_eq_getElem hi]
  have hmem := List.getElem_mem hi
  cases hv : mv[i] with
  | false => rfl
  | true => exact absurd (hv ▸ hmem) (List.count_eq_zero.mp hcnt)

theorem exists_false_of_count_lt {mv : List Bool} {M : Nat}
    (hcnt : mv.count true = M) (hM : M < mv.length) :
    ∃ j, j < mv.length ∧ mv[j]? = some false := by
  by_contra hc
  push_neg at hc
  have hall : ∀ a ∈ mv, true = a := by
    intro a ha
    obtain ⟨n, hn⟩ := List.mem_iff_getElem?.mp ha
    have hnl : n < mv.length := (List.getElem?_eq_some_iff.mp hn).1
    cases a with
    | true => rfl
    | false => exact absurd hn (hc n hnl)
  have := List.count_eq_length.mpr hall
  omega

theorem map_mine_modifyTile (ts : List Tile) (i j : Nat) (f : Tile → Tile)
    (hf : ∀ t, (f t).mine = t.mine) :
    ((modifyTile ts i f)[j]?).map Tile.mine = (ts[j]?).map Tile.mine := by
  rw [getElem?_modifyTile]
  split
  · next hij => subst hij; cases ts[i]? <;> simp [hf]
  · rfl

theorem foldl_modify_mine (g : Tile → Tile) (hg : ∀ t, (g t).mine = t.mine)
    (idxs : List Nat) (ts : List Tile) (j : Nat) :
    ((idxs.foldl (fun acc s => modifyTile acc s g) ts)[j]?).map Tile.mine =
      (ts[j]?).map Tile.mine := by
  induction idxs generalizing ts with
  | nil => rfl
  | cons a rest ih =>
    rw [List.foldl_cons, ih, map_mine_modifyTile _ _ _ _ hg]

/-- If some tile of the board is not a mine, `uncover_tile` cannot hit the
empty-replacement-list panic, so it succeeds whenever the target index is in
range. -/
theorem Board.uncover_tile_isSome {b : Board} {x y : Nat} (r : Nat) {tile : Tile}
    (ht : b.tiles[get_1d x y b.width]? = some tile)
    (hnm : ∃ (j : Nat) (t : Tile), b.tiles[j]? = some t ∧ t.mine = false) :
    ∃ b', b.uncover_tile x y r = some b' := by
  simp only [Board.uncover_tile, ht]
  split
  · split
    · next heq =>
      exfalso
      obtain ⟨j, t, hj, hjm⟩ := hnm
      rw [List.getElem?_eq_none_iff] at heq
      -- the replacement list is empty, yet `j` belongs to it
      set ts2 := (get_1d_manhattan (get_1d x y b.width) b.width).foldl
        (fun acc s => modifyTile acc s
          (fun tl => { tl with mines_surrounding := tl.mines_surrounding - 1 }))
        (modifyTile b.tiles (get_1d x y b.width)
          (fun tl => { tl with mine := false })) with hts2
      have hmine : (ts2[j]?).map Tile.mine = some false := by
        rw [hts2,
          foldl_modify_mine
            (fun tl => { tl with mines_surrounding := tl.mines_surrounding - 1 })
            (fun _ => rfl),
          getElem?_modifyTile]
        split
        · next hpj => rw [hpj, hj]; rfl
        · rw [hj]
          exact congrArg _ hjm
      obtain ⟨t2, ht2, ht2m⟩ := Option.map_eq_some'.mp hmine
      have hjmem : j ∈ (ts2.enum.filter (fun p => ! p.2.mine)).map Prod.fst := by
        refine List.mem_map.mpr ⟨(j, t2), List.mem_filter.mpr ⟨?_, ?_⟩, rfl⟩
        · refine List.mem_iff_getElem?.mpr ⟨j, ?_⟩
          rw [List.getElem?_enum, ht2]
          rfl
        · rw [ht2m]
          rfl
      have hlenpos : 0 < ((ts2.enum.filter (fun p => ! p.2.mine)).map Prod.fst).length :=
        List.length_pos.mpr (List.ne_nil_of_mem hjmem)
      have := Nat.mod_lt r hlenpos
      omega
    · exact ⟨_, rfl⟩
  · split
    · exact ⟨_, rfl⟩
    · exact ⟨_, rfl⟩

/-! ## Claim C7 -/

/-- **C7**: `new(width, height, mine_total)` fails with the
`InvalidConfiguration` error exactly when `mine_total ≥ width*height`
(both the `>` and the `=` case are rejected); otherwise the resulting board
has every tile `Covered`, `flag_total = flag_correct = 0`, outcome
`Unresolved` (`won = none`) and `first_uncover_pending` (`first_uncover`)
true. -/
theorem C7_new_validation (width height mine_num : Nat) (mine_values : List Bool) :
    ((∃ e, Board.new width height mine_num mine_values = Except.error e) ↔
      width * height ≤ mine_num) ∧
    (∀ b, Board.new width height mine_num mine_values = Except.ok b →
      (∀ t ∈ b.tiles, t.state = State.Covered) ∧ b.flag_total = 0 ∧
      b.flag_correct = 0 ∧ b.won = none ∧ b.first_uncover = true) := by
  constructor
  · constructor
    · rintro ⟨e, he⟩
      by_contra hM
      unfold Board.new at he
      rw [if_neg (by omega), if_neg (by omega)] at he
      exact absurd he (by simp)
    · exact fun hM => Board.new_error hM
  · intro b hb
    obtain ⟨-, hwon, -, -, hft, hfc, hfu, -, hget⟩ := Board.new_ok hb
    refine ⟨fun t ht => ?_, hft, hfc, hwon, hfu⟩
    obtain ⟨i, hti⟩ := List.mem_iff_getElem?.mp ht
    have h2 : (mine_values[i]?).map
        (fun m => Tile.new m (mineTotalAt mine_values width i)) = some t := by
      rw [← hget i, hti]
    obtain ⟨m, -, rfl⟩ := Option.map_eq_some'.mp h2
    rfl

/-- Witness for C7 at a concrete input: a 1×1 board with one mine is
rejected. -/
theorem C7_new_validation_witness :
    ∃ e, Board.new 1 1 1 [true] = Except.error e :=
  (C7_new_validation 1 1 1 [true]).1.mpr (by norm_num)

/-! ## Claim C1 -/

/-- **C1**: for a board with unresolved outcome and a command that does not
uncover a live mine (the final outcome is not `Lost`), the outcome becomes
`Won` if and only if, after the command's per-tile state changes (the board
`b1` produced by `match_step`, inspected by the trailing win check before
any end-game reveal), `flag_correct` equals `mine_total` or the number of
`Uncovered` non-mine tiles equals `width*height - mine_total`.  In
particular the right-to-left direction shows that correctly flagging every
mine wins even while safe tiles remain covered. -/
theorem C1_win_condition (w h : Nat) {b b' : Board} {x y : Nat} {u : PushState}
    {r : Nat} (hwon : b.won = none) (hlen : b.tiles.length = w * h)
    (hp : b.push_state x y u r = some b') (hnl : b'.won ≠ some false) :
    ∃ b1, b.match_step x y u r = some b1 ∧
      (b'.won = some true ↔
        (b1.flag_correct = b.mine_total ∨
          uncoverCorrect b1 = w * h - b.mine_total)) := by
  rw [Board.push_state_of_none hwon] at hp
  cases hms : b.match_step x y u r with
  | none => rw [hms] at hp; cases hp
  | some b1 =>
    rw [hms] at hp
    cases hp
    refine ⟨b1, rfl, ?_⟩
    obtain ⟨-, hmt1, hlen1⟩ := Board.match_step_dims hms
    have hb1 : b1.won = none := by
      rcases Board.match_step_won hwon hms with hn | hn
      · exact hn
      · exfalso
        apply hnl
        rw [Board.win_check_eq, if_neg (by simp [hn] : ¬ b1.won = none)]
        exact hn
    have hcond_iff : (b1.flag_correct = b1.mine_total ∨
        uncoverCorrect b1 = b1.tiles.length - b1.mine_total) ↔
        (b1.flag_correct = b.mine_total ∨
          uncoverCorrect b1 = w * h - b.mine_total) := by
      rw [hmt1, hlen1, hlen]
    rw [Board.win_check_eq, if_pos hb1]
    by_cases hcond : b1.flag_correct = b1.mine_total ∨
        uncoverCorrect b1 = b1.tiles.length - b1.mine_total
    · rw [if_pos hcond]
      exact iff_of_true (Board.end_game_won b1 true) (hcond_iff.mp hcond)
    · rw [if_neg hcond]
      exact iff_of_false (by rw [hb1]; simp) (fun hc => hcond (hcond_iff.mpr hc))

/-- Witness for C1: on the 2×1 board with its mine at cell 1, flagging the
mine as the first command ends the game `Won`, and the win-condition
equivalence is exhibited at this concrete input. -/
theorem C1_win_condition_witness :
    ∃ b1, (⟨[⟨State.Covered, false, 1⟩, ⟨State.Covered, true, 0⟩],
        none, 2, 1, 0, 0, true⟩ : Board).match_step 1 0 PushState.Flag 0 = some b1 ∧
      ((⟨[⟨State.Uncovered, false, 1⟩, ⟨State.FlagRevealed, true, 0⟩],
          some true, 2, 1, 1, 1, true⟩ : Board).won = some true ↔
        (b1.flag_correct = 1 ∨ uncoverCorrect b1 = 2 * 1 - 1)) :=
  C1_win_condition 2 1 (by rfl) (by rfl) (by rfl) (by decide)

/-! ## Claim C3 -/

/-- **C3 (counterexample)**: on the 2×1 board with its mine on cell 0,
revealing cell 0 first with a relocation draw that picks candidate 0 leaves
the mine on the *revealed* cell — `tiles.map mine = [true, false]` — not on
the other cell as the claim demands (the outcome is still not `Lost`;
here the flood fill then reveals the safe cell and the game is `Won`). -/
theorem C3_mine_can_stay_on_revealed_cell :
    ((Board.new 2 1 1 [true, false]).toOption.bind
      (fun b => b.push_state 0 0 PushState.Uncover 0)).map
        (fun b' => (b'.tiles.map Tile.mine, b'.won)) =
      some ([true, false], some true) := by decide

/-- **C3 (amended)**: on a 2×1 board with `mine_total = 1`, whichever cell
is revealed first, the command succeeds and the outcome is never `Lost`,
and exactly one cell holds the mine afterwards.  If the revealed cell was
safe the mine stays on the other cell; if the revealed cell held the mine,
the relocation draws uniformly among *both* cells (the candidate list after
clearing the mine is `[0, 1]`), so the mine ends on the cell indexed by the
draw `r % 2` — possibly the revealed cell itself. -/
theorem C3_two_by_one_amended
    (mv : List Bool) (hmv : mv = [true, false] ∨ mv = [false, true])
    (x : Nat) (hx : x = 0 ∨ x = 1) (b : Board)
    (hnew : Board.new 2 1 1 mv = Except.ok b) (r : Nat) :
    ∃ b', b.push_state x 0 PushState.Uncover r = some b' ∧
      b'.won ≠ some false ∧
      (b'.tiles.map Tile.mine).count true = 1 ∧
      (mv[x]? = some false → (b'.tiles.map Tile.mine)[1 - x]? = some true) ∧
      (mv[x]? = some true → (b'.tiles.map Tile.mine)[r % 2]? = some true) := by
  rcases hmv with rfl | rfl <;>
    [(obtain rfl : (⟨[⟨State.Covered, true, 0⟩, ⟨State.Covered, false, 1⟩],
        none, 2, 1, 0, 0, true⟩ : Board) = b := Except.ok.inj hnew);
     (obtain rfl : (⟨[⟨State.Covered, false, 1⟩, ⟨State.Covered, true, 0⟩],
        none, 2, 1, 0, 0, true⟩ : Board) = b := Except.ok.inj hnew)] <;>
  rcases hx with rfl | rfl <;>
  rcases Nat.mod_two_eq_zero_or_one r with hr | hr <;>
  simp [Board.push_state, Board.match_step, Board.get_tile, Board.uncover_tile,
    Board.finish_uncover, Board.clear_zeros, Board.win_check, Board.end_game,
    uncoverCorrect, get_1d, get_1d_manhattan, get_manhattan, get_2d, modifyTile,
    markUncovered, uniqueList, surroundingsOf, processSurroundings, clearZerosLoop,
    procStep, mineTotalAt, Tile.new, hr, List.enum, List.enumFrom, List.filter,
    List.filterMap]

/-- Witness for the amended C3: revealing cell 0 of the 2×1 board whose
mine sits on cell 1 relocates nothing and the mine stays on cell 1. -/
theorem C3_two_by_one_amended_witness :
    ∃ b', (⟨[⟨State.Covered, false, 1⟩, ⟨State.Covered, true, 0⟩],
        none, 2, 1, 0, 0, true⟩ : Board).push_state 0 0 PushState.Uncover 0 = some b' ∧
      b'.won ≠ some false ∧
      (b'.tiles.map Tile.mine).count true = 1 ∧
      (([false, true] : List Bool)[0]? = some false →
        (b'.tiles.map Tile.mine)[1 - 0]? = some true) ∧
      (([false, true] : List Bool)[0]? = some true →
        (b'.tiles.map Tile.mine)[0 % 2]? = some true) :=
  C3_two_by_one_amended [false, true] (Or.inr rfl) 0 (Or.inl rfl) _ (by rfl) 0

/-! ## Claim C4 -/

/-- **C4 (refutation / failing input)**: out-of-range coordinates are *not*
rejected with an `OutOfBounds` error.  On a 2×2 board, `apply(2, 0, Flag)`
has `x ≥ width`, yet the engine computes row-major index `0*2+2 = 2`, which
is in range, and silently flags the tile at coordinate `(0, 1)` — it
operates on a different tile and changes state.  For `apply(0, 2, Flag)`
the index `2*2+0 = 4` is out of range and the engine panics on `unwrap`
(modelled as `none`) instead of returning an error value; the code has no
`OutOfBounds` error at all. -/
theorem C4_out_of_range_not_rejected :
    (((Board.new 2 2 1 [true, false, false, false]).toOption.bind
      (fun b => b.push_state 2 0 PushState.Flag 0)).map
        (fun b' => (b'.tiles.map Tile.state, b'.flag_total)) =
      some ([State.Covered, State.Covered, State.Flagged, State.Covered], 1)) ∧
    ((Board.new 2 2 1 [true, false, false, false]).toOption.bind
      (fun b => b.push_state 0 2 PushState.Flag 0)) = none := by decide

/-! ## Claim C5 -/

theorem foldl_add_bool (l : List Bool) (a : Nat) :
    l.foldl (fun t n => t + if n then 1 else 0) a = a + l.countP (fun x => x) := by
  induction l generalizing a with
  | nil => simp
  | cons c cs ih =>
    rw [List.foldl_cons, ih, List.countP_cons]
    cases c <;> simp <;> omega

theorem countP_fst_zip (l1 : List Bool) :
    ∀ l2 : List Nat, l1.length ≤ l2.length →
      (l1.zip l2).countP (fun p => p.1) = l1.countP (fun x => x) := by
  induction l1 with
  | nil => intro l2 _; rfl
  | cons c cs ih =>
    intro l2 hl
    cases l2 with
    | nil => simp at hl
    | cons d ds =>
      rw [List.zip_cons_cons, List.countP_cons, List.countP_cons,
        ih ds (by simpa using hl)]

/-- The count computed by the engine for an in-range position agrees with
the spec's four-edge-clipped Moore count: the engine leaves the lower grid
edge unchecked, but the resulting index then falls past the end of
`mine_values` and the lookup contributes nothing. -/
theorem mineTotalAt_eq_moore (mv : List Bool) (w h i : Nat)
    (hlen : mv.length = w * h) (hi : i < w * h) :
    mineTotalAt mv w i = mooreMineCount mv w h i := by
  unfold mineTotalAt mooreMineCount get_1d_manhattan get_2d
  rw [foldl_add_bool, Nat.zero_add, List.countP_filterMap, List.countP_filterMap,
    List.countP_map]
  refine List.countP_congr (fun d _ => ?_)
  simp only [Function.comp]
  constructor
  · intro hL
    -- the engine-side boolean is true
    split at hL
    · next hcond =>
      obtain ⟨hxw, hx0, hy0⟩ := hcond
      simp only [Option.map_some', Option.getD_some, Option.map_map] at hL
      -- hL : (Option.map _ mv[get_1d _ _ w]?).getD false = true
      have hyh : (d.2 + (i / w : Nat)) < (h : Int) := by
        by_contra hyh
        push_neg at hyh
        -- the engine index is out of range, so the lookup is `none`
        have hge : w * h ≤ get_1d (d.1 + (i % w : Nat)).toNat
            (d.2 + (i / w : Nat)).toNat w := by
          unfold get_1d
          have h1 : h ≤ (d.2 + (i / w : Nat)).toNat := by omega
          have h2 : h * w ≤ (d.2 + (i / w : Nat)).toNat * w :=
            Nat.mul_le_mul_right w h1
          have h3 : h * w = w * h := Nat.mul_comm h w
          omega
        rw [List.getElem?_eq_none (hlen ▸ hge)] at hL
        simp at hL
      have hidx : ((((i / w : Nat) : Int) + d.2) * w + ((i % w : Nat) + d.1)).toNat =
          get_1d (d.1 + (i % w : Nat)).toNat (d.2 + (i / w : Nat)).toNat w := by
        unfold get_1d
        have hcast : ((((d.2 + (i / w : Nat)).toNat * w +
            (d.1 + (i % w : Nat)).toNat : Nat)) : Int) =
            (((i / w : Nat) : Int) + d.2) * w + ((i % w : Nat) + d.1) := by
          rw [Nat.cast_add, Nat.cast_mul, Int.toNat_of_nonneg hy0,
            Int.toNat_of_nonneg hx0]
          ring
        rw [← hcast, Int.toNat_natCast]
      rw [Bool.and_eq_true, decide_eq_true_eq]
      refine ⟨⟨by omega, by omega, by omega, by omega⟩, ?_⟩
      rw [hidx]
      rcases hv : mv[get_1d (d.1 + (i % w : Nat)).toNat (d.2 + (i / w : Nat)).toNat w]?
        with _ | v
      · rw [hv] at hL; simp at hL
      · rw [hv] at hL
        simp only [Option.map_some', Option.getD_some] at hL ⊢
        exact hL
    · simp at hL
  · intro hR
    rw [Bool.and_eq_true, decide_eq_true_eq] at hR
    obtain ⟨⟨hx0, hxw, hy0, hyh⟩, hv⟩ := hR
    rw [if_pos ⟨by omega, by omega, by omega⟩]
    simp only [Option.map_some', Option.getD_some, Option.map_map]
    have hidx : ((((i / w : Nat) : Int) + d.2) * w + ((i % w : Nat) + d.1)).toNat =
        get_1d (d.1 + (i % w : Nat)).toNat (d.2 + (i / w : Nat)).toNat w := by
      unfold get_1d
      have hcast : ((((d.2 + (i / w : Nat)).toNat * w +
          (d.1 + (i % w : Nat)).toNat : Nat)) : Int) =
          (((i / w : Nat) : Int) + d.2) * w + ((i % w : Nat) + d.1) := by
        rw [Nat.cast_add, Nat.cast_mul,
          Int.toNat_of_nonneg (by omega : (0:Int) ≤ d.2 + (i / w : Nat)),
          Int.toNat_of_nonneg (by omega : (0:Int) ≤ d.1 + (i % w : Nat))]
        ring
      rw [← hcast, Int.toNat_natCast]
    rw [hidx] at hv
    rcases hvv : mv[get_1d (d.1 + (i % w : Nat)).toNat (d.2 + (i / w : Nat)).toNat w]?
      with _ | v
    · rw [hvv] at hv; simp at hv
    · rw [hvv] at hv
      simp only [Option.map_some', Option.getD_some] at hv ⊢
      exact hv

/-- **C5**: for every valid configuration (`mine_total < width*height`) and
every shuffle outcome, the constructed board stores exactly `mine_total`
mines, and every tile's `adjacent_mine_count` equals the true Moore-
neighbour mine count with the neighbourhood clipped at all four grid
edges. -/
theorem C5_new_mines_and_adjacency
    (w h M : Nat) (mv : List Bool) (b : Board)
    (hlen : mv.length = w * h) (hcnt : mv.count true = M)
    (hnew : Board.new w h M mv = Except.ok b) :
    b.tiles.countP Tile.mine = M ∧
    ∀ i, i < w * h →
      (b.tiles[i]?).map Tile.mines_surrounding = some (mooreMineCount mv w h i) := by
  obtain ⟨hM, -, -, -, -, -, -, hlen', hget⟩ := Board.new_ok hnew
  constructor
  · have htiles : b.tiles = (mv.zip ((List.range mv.length).map
        (fun i => mineTotalAt mv w i))).map (fun p => Tile.new p.1 p.2) := by
      simp only [Board.new] at hnew
      rw [if_neg (by omega), if_neg (by omega)] at hnew
      cases hnew
      rfl
    rw [htiles, List.countP_map]
    have h1 : (mv.zip ((List.range mv.length).map (fun i => mineTotalAt mv w i))).countP
        (Tile.mine ∘ fun p => Tile.new p.1 p.2) =
        (mv.zip ((List.range mv.length).map (fun i => mineTotalAt mv w i))).countP
        (fun p => p.1) :=
      List.countP_congr (fun p _ => Iff.rfl)
    rw [h1, countP_fst_zip _ _ (by simp)]
    rw [← hcnt, List.count_eq_countP]
    exact List.countP_congr (fun x _ => by cases x <;> simp)
  · intro i hi
    rw [hget i, List.getElem?_eq_getElem (by omega : i < mv.length)]
    simp only [Option.map_some']
    rw [mineTotalAt_eq_moore mv w h i hlen hi]
    rfl

/-- Witness for C5: the 2×2 board with one mine at `(0,0)`: it stores one
mine and each tile's stored count matches the clipped Moore count. -/
theorem C5_new_mines_and_adjacency_witness :
    ((⟨[⟨State.Covered, true, 0⟩, ⟨State.Covered, false, 1⟩,
        ⟨State.Covered, false, 1⟩, ⟨State.Covered, false, 1⟩],
        none, 2, 1, 0, 0, true⟩ : Board).tiles.countP Tile.mine = 1) ∧
    ∀ i, i < 2 * 2 →
      ((⟨[⟨State.Covered, true, 0⟩, ⟨State.Covered, false, 1⟩,
          ⟨State.Covered, false, 1⟩, ⟨State.Covered, false, 1⟩],
          none, 2, 1, 0, 0, true⟩ : Board).tiles[i]?).map Tile.mines_surrounding =
        some (mooreMineCount [true, false, false, false] 2 2 i) :=
  C5_new_mines_and_adjacency 2 2 1 [true, false, false, false] _
    (by decide) (by decide) (by rfl)

/-! ## Claim C8 -/

theorem Board.end_game_states (b : Board) (w : Bool) :
    ∀ t ∈ (b.end_game w).tiles,
      t.state = State.Uncovered ∨ t.state = State.FlagRevealed := by
  intro t ht
  obtain ⟨t0, -, rfl⟩ := List.mem_map.mp ht
  by_cases h : t0.state = State.Flagged
  · right; simp [h]
  · left; simp [h]

/-- After `end_game` nothing is `Covered`, so a chording step skips. -/
theorem chordStep_skip {r : Nat} {bb : Board} {c : Nat}
    (h : ∀ t ∈ bb.tiles, t.state = State.Uncovered ∨ t.state = State.FlagRevealed) :
    chordStep r (some bb) c = some bb := by
  simp only [chordStep]
  split
  · next t ht =>
    rw [if_neg]
    rcases h t (List.mem_iff_getElem?.mpr ⟨c, ht⟩) with hs | hs <;> simp [hs]
  · rfl

theorem Board.uncover_tile_lost_shape {b b' : Board} {x y r : Nat}
    (hwon : b.won = none) (h : b.uncover_tile x y r = some b')
    (hl : b'.won = some false) : b' = b.end_game false := by
  simp only [Board.uncover_tile] at h
  split at h
  · cases h
  · split at h
    · split at h
      · cases h
      · cases h
        rw [Board.finish_uncover_won] at hl
        simp [hwon] at hl
    · split at h
      · cases h; rfl
      · cases h
        rw [Board.finish_uncover_won] at hl
        rw [hwon] at hl
        cases hl

theorem Board.match_step_lost_states {b b1 : Board} {x y : Nat} {u : PushState}
    {r : Nat} (hwon : b.won = none) (h : b.match_step x y u r = some b1)
    (hl : b1.won = some false) :
    ∀ t ∈ b1.tiles, t.state = State.Uncovered ∨ t.state = State.FlagRevealed := by
  simp only [Board.match_step] at h
  split at h
  · cases h
  · split at h
    · rw [Board.uncover_tile_lost_shape hwon h hl]
      exact Board.end_game_states b false
    · split at h
      · have hP := foldl_chordStep_inv r (fun bb => bb.won = none ∨
          (bb.won = some false ∧ ∀ t ∈ bb.tiles,
            t.state = State.Uncovered ∨ t.state = State.FlagRevealed))
          (fun bb c b2 hP hs => ?_) _ b b1 (Or.inl hwon) h
        · rcases hP with hP | hP
          · rw [hP] at hl; cases hl
          · exact hP.2
        · rcases hP with hP | hP
          · rcases chordStep_cases hs with rfl | hu
            · exact Or.inl hP
            · rcases Board.uncover_tile_won hu with h' | h'
              · exact Or.inl (h'.trans hP)
              · exact Or.inr ⟨h', by
                  rw [Board.uncover_tile_lost_shape hP hu h']
                  exact Board.end_game_states bb false⟩
          · rw [chordStep_skip hP.2] at hs
            cases hs
            exact Or.inr hP
      · cases h; rw [hwon] at hl; cases hl
    · split at h
      · cases h
        split at hl <;> simp_all [Board.set_tile_state]
      · cases h
    · split at h
      · split at h
        · cases h
          split at hl <;> simp_all [Board.set_tile_state]
        · cases h
      · cases h; rw [hwon] at hl; cases hl
    · cases h; rw [hwon] at hl; cases hl

/-- **C8**: (1) `end_game` sets the terminal outcome and maps every
`Flagged` tile to `FlagRevealed` and every other tile to `Uncovered`
regardless of its mine status; (2) whenever a command moves the outcome
from `Unresolved` to a terminal value, every tile of the resulting board is
`Uncovered` or `FlagRevealed` (the whole board is revealed); (3) once the
outcome is terminal, every further `apply` returns the snapshot unchanged
(in particular the outcome never changes again). -/
theorem C8_terminal_reveal_and_freeze :
    (∀ (b : Board) (w : Bool),
      (b.end_game w).won = some w ∧
      (b.end_game w).tiles = b.tiles.map (fun t =>
        { t with state := if t.state = State.Flagged
                          then State.FlagRevealed else State.Uncovered })) ∧
    (∀ (b b' : Board) (x y : Nat) (u : PushState) (r : Nat),
      b.won = none → b.push_state x y u r = some b' → (b'.won).isSome →
      ∀ t ∈ b'.tiles, t.state = State.Uncovered ∨ t.state = State.FlagRevealed) ∧
    (∀ (b : Board) (x y : Nat) (u : PushState) (r : Nat),
      b.won.isSome → b.push_state x y u r = some b) := by
  refine ⟨fun b w => ⟨rfl, rfl⟩, ?_, fun b x y u r h => Board.push_state_of_some h x y u r⟩
  intro b b' x y u r hwon hp hterm
  rw [Board.push_state_of_none hwon] at hp
  cases hms : b.match_step x y u r with
  | none => rw [hms] at hp; cases hp
  | some b1 =>
    rw [hms] at hp
    cases hp
    rcases Board.match_step_won hwon hms with hn | hn
    · rw [Board.win_check_eq, if_pos hn]
      split
      · exact Board.end_game_states b1 true
      · rw [Board.win_check_eq, if_pos hn] at hterm
        split at hterm
        · next hc hc2 => exact absurd hc2 hc
        · rw [hn] at hterm; cases hterm
    · rw [Board.win_check_eq, if_neg (by simp [hn])]
      exact Board.match_step_lost_states hwon hms hn

/-- Witness for C8 at a concrete terminal board: a further `Flag` command
on a finished 2×1 board returns the snapshot unchanged. -/
theorem C8_terminal_reveal_and_freeze_witness :
    (⟨[⟨State.Uncovered, true, 0⟩, ⟨State.Uncovered, false, 1⟩],
        some true, 2, 1, 0, 0, false⟩ : Board).push_state 0 0 PushState.Flag 0 =
      some (⟨[⟨State.Uncovered, true, 0⟩, ⟨State.Uncovered, false, 1⟩],
        some true, 2, 1, 0, 0, false⟩ : Board) :=
  C8_terminal_reveal_and_freeze.2.2 _ 0 0 PushState.Flag 0 (by decide)

/-! ## Geometry of the Moore neighbourhood (for C10 and C6) -/

theorem get_manhattan_neg_mem : ∀ a b : Int,
    (a, b) ∈ get_manhattan → (-a, -b) ∈ get_manhattan := by
  intro a b h
  unfold get_manhattan at h ⊢
  simp only [List.mem_cons, List.not_mem_nil, or_false, Prod.mk.injEq] at h ⊢
  rcases h with h | h | h | h | h | h | h | h <;>
    obtain ⟨rfl, rfl⟩ := h <;> norm_num

/-- Index-level characterisation of the engine's Moore neighbourhood:
`j` is produced from `i` exactly when the coordinate difference (with `j`'s
coordinates read off as `(j % w, j / w)`) is one of the eight offsets. -/
theorem mem_get_1d_manhattan_iff {w : Nat} (hw : 0 < w) (i j : Nat) :
    j ∈ get_1d_manhattan i w ↔
      (((j % w : Nat) : Int) - ((i % w : Nat) : Int),
       ((j / w : Nat) : Int) - ((i / w : Nat) : Int)) ∈ get_manhattan := by
  unfold get_1d_manhattan get_2d
  constructor
  · intro hmem
    rw [List.mem_filterMap] at hmem
    obtain ⟨q, hq, hgq⟩ := hmem
    rw [List.mem_map] at hq
    obtain ⟨d, hd, rfl⟩ := hq
    split at hgq
    · next hcond =>
      obtain ⟨hxw, hx0, hy0⟩ := hcond
      obtain rfl := (Option.some.injEq _ _).mp hgq
      have hXlt : (d.1 + (i % w : Nat)).toNat < w := by omega
      have hmodX : get_1d (d.1 + (i % w : Nat)).toNat (d.2 + (i / w : Nat)).toNat w % w
          = (d.1 + (i % w : Nat)).toNat := by
        unfold get_1d
        rw [Nat.mul_comm, Nat.mul_add_mod, Nat.mod_eq_of_lt hXlt]
      have hdivY : get_1d (d.1 + (i % w : Nat)).toNat (d.2 + (i / w : Nat)).toNat w / w
          = (d.2 + (i / w : Nat)).toNat := by
        unfold get_1d
        rw [Nat.add_comm, Nat.add_mul_div_right _ _ hw, Nat.div_eq_of_lt hXlt,
          Nat.zero_add]
      rw [hmodX, hdivY]
      have h1 : (((d.1 + (i % w : Nat)).toNat : Nat) : Int) = d.1 + (i % w : Nat) :=
        Int.toNat_of_nonneg hx0
      have h2 : (((d.2 + (i / w : Nat)).toNat : Nat) : Int) = d.2 + (i / w : Nat) :=
        Int.toNat_of_nonneg hy0
      have hpair : ((((d.1 + (i % w : Nat)).toNat : Nat) : Int) - ((i % w : Nat) : Int),
          (((d.2 + (i / w : Nat)).toNat : Nat) : Int) - ((i / w : Nat) : Int)) = d := by
        refine Prod.ext ?_ ?_
        · rw [h1]; ring
        · rw [h2]; ring
      rw [hpair]
      exact hd
    · cases hgq
  · intro hd
    rw [List.mem_filterMap]
    refine ⟨(((j % w : Nat) : Int), ((j / w : Nat) : Int)), ?_, ?_⟩
    · rw [List.mem_map]
      refine ⟨_, hd, ?_⟩
      refine Prod.ext ?_ ?_ <;> simp <;> ring
    · have hjw : j % w < w := Nat.mod_lt j hw
      rw [if_pos ⟨show (w : Int) > ((j % w : Nat) : Int) from by exact_mod_cast hjw,
        show (0 : Int) ≤ ((j % w : Nat) : Int) from by positivity,
        show (0 : Int) ≤ ((j / w : Nat) : Int) from by positivity⟩]
      simp only [Option.mem_def, Option.some.injEq]
      show get_1d ((j % w : Nat) : Int).toNat ((j / w : Nat) : Int).toNat w = j
      rw [Int.toNat_natCast, Int.toNat_natCast]
      have hdm := Nat.div_add_mod j w
      unfold get_1d
      rw [Nat.mul_comm] at hdm
      exact hdm

theorem get_1d_manhattan_symm {w : Nat} (hw : 0 < w) (i j : Nat) :
    j ∈ get_1d_manhattan i w ↔ i ∈ get_1d_manhattan j w := by
  rw [mem_get_1d_manhattan_iff hw, mem_get_1d_manhattan_iff hw]
  constructor <;> intro h <;>
    simpa [neg_sub] using get_manhattan_neg_mem _ _ h

theorem get_1d_manhattan_nodup {w : Nat} (hw : 0 < w) (i : Nat) :
    (get_1d_manhattan i w).Nodup := by
  unfold get_1d_manhattan get_2d
  refine List.Nodup.filterMap ?_ (List.Nodup.map ?_ (by decide))
  · intro q q' j hj hj'
    have recover : ∀ q0 : Int × Int,
        j ∈ (if (w : Int) > q0.1 ∧ 0 ≤ q0.1 ∧ 0 ≤ q0.2 then
          some (get_1d q0.1.toNat q0.2.toNat w) else none) →
        q0.1 = ((j % w : Nat) : Int) ∧ q0.2 = ((j / w : Nat) : Int) := by
      intro q0 hq0
      split at hq0
      · next hcond =>
        obtain ⟨hxw, hx0, hy0⟩ := hcond
        rw [Option.mem_def] at hq0
        have hj0 : get_1d q0.1.toNat q0.2.toNat w = j := Option.some.inj hq0
        have hXlt : q0.1.toNat < w := by omega
        have hmodX : j % w = q0.1.toNat := by
          rw [← hj0]
          unfold get_1d
          rw [Nat.mul_comm, Nat.mul_add_mod, Nat.mod_eq_of_lt hXlt]
        have hdivY : j / w = q0.2.toNat := by
          rw [← hj0]
          unfold get_1d
          rw [Nat.add_comm, Nat.add_mul_div_right _ _ hw, Nat.div_eq_of_lt hXlt,
            Nat.zero_add]
        constructor
        · rw [hmodX, Int.toNat_of_nonneg hx0]
        · rw [hdivY, Int.toNat_of_nonneg hy0]
      · cases hq0
    obtain ⟨e1, e2⟩ := recover q hj
    obtain ⟨e1', e2'⟩ := recover q' hj'
    exact Prod.ext (e1.trans e1'.symm) (e2.trans e2'.symm)
  · intro d d' hdd
    have h1 : d.1 + ((i % w : Nat) : Int) = d'.1 + ((i % w : Nat) : Int) :=
      congrArg Prod.fst hdd
    have h2 : d.2 + ((i / w : Nat) : Int) = d'.2 + ((i / w : Nat) : Int) :=
      congrArg Prod.snd hdd
    exact Prod.ext (by omega) (by omega)

/-! ## Counting mines, and state-blind preservation -/

theorem trueMineCount_eq_countP (ts : List Tile) (w j : Nat) :
    trueMineCount ts w j =
      (get_1d_manhattan j w).countP (fun n => ((ts[n]?).map Tile.mine).getD false) := by
  unfold trueMineCount
  rw [List.countP_filterMap]

theorem trueMineCount_congr {ts ts' : List Tile} {w : Nat}
    (h : ∀ n : Nat, (ts'[n]?).map Tile.mine = (ts[n]?).map Tile.mine) (j : Nat) :
    trueMineCount ts' w j = trueMineCount ts w j := by
  rw [trueMineCount_eq_countP, trueMineCount_eq_countP]
  refine List.countP_congr ?_
  intro n _
  rw [h n]

/-- Flipping one position of the predicate from `true` to `false` lowers a
`countP` over a duplicate-free list by its membership indicator. -/
theorem countP_true_to_false {l : List Nat} (hnd : l.Nodup) {q : Nat}
    {p p' : Nat → Bool} (hag : ∀ n, n ≠ q → p n = p' n)
    (hq : p q = true) (hq' : p' q = false) :
    l.countP p = l.countP p' + (if q ∈ l then 1 else 0) := by
  induction l with
  | nil => simp
  | cons a rest ih =>
    rcases List.nodup_cons.mp hnd with ⟨hnm, hnd'⟩
    rw [List.countP_cons, List.countP_cons]
    by_cases hqa : q = a
    · subst hqa
      have hrest : rest.countP p = rest.countP p' :=
        List.countP_congr (fun n hn => by rw [hag n (fun he => hnm (he ▸ hn))])
      rw [hrest, hq, hq', if_pos (List.mem_cons_self q rest)]
      simp
    · rw [hag a (fun he => hqa he.symm), ih hnd']
      simp only [show (q ∈ a :: rest) ↔ q ∈ rest from by simp [List.mem_cons, hqa]]
      omega

theorem map_proj_modifyTile {α : Type} (pr : Tile → α) (ts : List Tile) (i j : Nat)
    (f : Tile → Tile) (hf : ∀ t, pr (f t) = pr t) :
    ((modifyTile ts i f)[j]?).map pr = (ts[j]?).map pr := by
  rw [getElem?_modifyTile]
  split
  · next hij => subst hij; cases ts[i]? <;> simp [hf]
  · rfl

theorem foldl_modify_proj {α : Type} (pr : Tile → α) (g : Tile → Tile)
    (hg : ∀ t, pr (g t) = pr t) (idxs : List Nat) (ts : List Tile) (j : Nat) :
    ((idxs.foldl (fun acc s => modifyTile acc s g) ts)[j]?).map pr =
      (ts[j]?).map pr := by
  induction idxs generalizing ts with
  | nil => rfl
  | cons a rest ih => rw [List.foldl_cons, ih, map_proj_modifyTile _ _ _ _ _ hg]

theorem procStep_snd_proj (p : List Nat × List Tile) (t j : Nat) :
    (((procStep p t).2)[j]?).map mineCountOf = ((p.2)[j]?).map mineCountOf := by
  rw [procStep]
  split
  · rfl
  · exact map_proj_modifyTile mineCountOf _ _ _ _ (fun _ => rfl)

theorem foldl_procStep_proj (surr : List Nat) :
    ∀ (p : List Nat × List Tile) (j : Nat),
      (((surr.foldl procStep p).2)[j]?).map mineCountOf = ((p.2)[j]?).map mineCountOf := by
  induction surr with
  | nil => intro p j; rfl
  | cons a rest ih =>
    intro p j
    rw [List.foldl_cons, ih, procStep_snd_proj]

theorem clearZerosLoop_proj (width fuel : Nat) :
    ∀ (ts : List Tile) (working : List Nat) (j : Nat),
      ((clearZerosLoop width fuel ts working)[j]?).map mineCountOf =
        (ts[j]?).map mineCountOf := by
  induction fuel with
  | zero => intro ts working j; cases working <;> rfl
  | succ n ih =>
    intro ts working j
    cases working with
    | nil => rfl
    | cons a rest =>
      simp only [clearZerosLoop]
      rw [ih, processSurroundings, foldl_procStep_proj, markUncovered,
        foldl_modify_proj mineCountOf
          (fun tl => { tl with state := State.Uncovered }) (fun _ => rfl)]

theorem Board.clear_zeros_proj (b : Board) (sp : Nat × Nat) (j : Nat) :
    ((b.clear_zeros sp).tiles[j]?).map mineCountOf = (b.tiles[j]?).map mineCountOf :=
  clearZerosLoop_proj ..

theorem Board.finish_uncover_proj (b : Board) (p x y j : Nat) :
    ((b.finish_uncover p x y).tiles[j]?).map mineCountOf =
      (b.tiles[j]?).map mineCountOf := by
  simp only [Board.finish_uncover]
  split
  · split
    · rw [Board.clear_zeros_proj]
      exact map_proj_modifyTile mineCountOf _ _ _ _ (fun _ => rfl)
    · exact map_proj_modifyTile mineCountOf _ _ _ _ (fun _ => rfl)
  · exact map_proj_modifyTile mineCountOf _ _ _ _ (fun _ => rfl)

theorem Board.end_game_proj (b : Board) (w : Bool) (j : Nat) :
    ((b.end_game w).tiles[j]?).map mineCountOf = (b.tiles[j]?).map mineCountOf := by
  show ((b.tiles.map _)[j]?).map mineCountOf = _
  rw [List.getElem?_map]
  cases b.tiles[j]? <;> rfl

theorem map_mine_of_proj {o o' : Option Tile}
    (h : o'.map mineCountOf = o.map mineCountOf) :
    o'.map Tile.mine = o.map Tile.mine := by
  cases o <;> cases o' <;> simp_all [mineCountOf, Prod.ext_iff]

theorem adjCorrect_of_proj {b b' : Board} (hw : b'.width = b.width)
    (hpt : ∀ n : Nat, (b'.tiles[n]?).map mineCountOf = (b.tiles[n]?).map mineCountOf)
    (h : adjCorrect b) : adjCorrect b' := by
  intro j t' ht'
  have hj := hpt j
  rw [ht'] at hj
  rcases hb : b.tiles[j]? with _ | t
  · rw [hb] at hj; cases hj
  · rw [hb] at hj
    have hmc := Option.some.inj hj
    have hcount : t'.mines_surrounding = t.mines_surrounding :=
      congrArg Prod.snd hmc
    rw [hcount, h j t hb, hw]
    exact (trueMineCount_congr (fun n => map_mine_of_proj (hpt n)) j).symm

/-! ## The adjacency invariant under mine relocation -/

theorem get_1d_manhattan_not_self {w : Nat} (hw : 0 < w) (p : Nat) :
    p ∉ get_1d_manhattan p w := by
  rw [mem_get_1d_manhattan_iff hw, sub_self, sub_self]
  decide

/-- Clearing the mine at `p` and decrementing all of `p`'s Moore neighbours
preserves the adjacency invariant. -/
theorem adjOK_remove_mine {ts : List Tile} {w p : Nat} (hw : 0 < w)
    (hadj : adjOK ts w) {tp : Tile} (hp : ts[p]? = some tp) (hm : tp.mine = true) :
    adjOK ((get_1d_manhattan p w).foldl
      (fun acc s => modifyTile acc s
        (fun t => { t with mines_surrounding := t.mines_surrounding - 1 }))
      (modifyTile ts p (fun t => { t with mine := false }))) w := by
  intro j t4 ht4
  set ts1 := modifyTile ts p (fun t => { t with mine := false }) with hts1
  set ts2 := (get_1d_manhattan p w).foldl
      (fun acc s => modifyTile acc s
        (fun t => { t with mines_surrounding := t.mines_surrounding - 1 })) ts1 with hts2
  have hnd := get_1d_manhattan_nodup hw p
  have hts2j : ∀ n : Nat, ts2[n]? = if n ∈ get_1d_manhattan p w
      then (ts1[n]?).map (fun t => { t with mines_surrounding := t.mines_surrounding - 1 })
      else ts1[n]? := fun n => getElem?_foldl_modify_nodup _ _ _ _ hnd
  have hmine2 : ∀ n : Nat, (ts2[n]?).map Tile.mine = (ts1[n]?).map Tile.mine :=
    fun n => foldl_modify_mine
      (fun t => { t with mines_surrounding := t.mines_surrounding - 1 })
      (fun _ => rfl) _ _ n
  have hts1p : ts1[p]? = some { tp with mine := false } := by
    rw [hts1, getElem?_modifyTile, if_pos rfl, hp]
    rfl
  have hts1n : ∀ n : Nat, n ≠ p → ts1[n]? = ts[n]? := fun n hn => by
    rw [hts1, getElem?_modifyTile, if_neg (fun he => hn he.symm)]
  have htc : ∀ jj : Nat, trueMineCount ts w jj =
      trueMineCount ts2 w jj + (if p ∈ get_1d_manhattan jj w then 1 else 0) := by
    intro jj
    rw [show trueMineCount ts2 w jj = trueMineCount ts1 w jj from
      trueMineCount_congr hmine2 jj]
    rw [trueMineCount_eq_countP, trueMineCount_eq_countP]
    refine countP_true_to_false (get_1d_manhattan_nodup hw jj)
      (fun n hn => by rw [hts1n n hn]) ?_ ?_
    · rw [hp]
      simpa using hm
    · rw [hts1p]
      rfl
  by_cases hjm : j ∈ get_1d_manhattan p w
  · rw [hts2j j, if_pos hjm] at ht4
    obtain ⟨t1, ht1, rfl⟩ := Option.map_eq_some'.mp ht4
    have hpj : p ∈ get_1d_manhattan j w := (get_1d_manhattan_symm hw p j).mp hjm
    have hj_ne_p : j ≠ p := fun he => get_1d_manhattan_not_self hw p (he ▸ hjm)
    have ht1' : ts[j]? = some t1 := by
      rw [← hts1n j hj_ne_p]
      exact ht1
    have hc := hadj j t1 ht1'
    have hge : 1 ≤ trueMineCount ts w j := by
      rw [trueMineCount_eq_countP]
      refine List.countP_pos.mpr ⟨p, hpj, ?_⟩
      rw [hp]
      simpa using hm
    have hj := htc j
    rw [if_pos hpj] at hj
    show t1.mines_surrounding - 1 = trueMineCount ts2 w j
    omega
  · rw [hts2j j, if_neg hjm] at ht4
    have hpj : p ∉ get_1d_manhattan j w :=
      fun hc => hjm ((get_1d_manhattan_symm hw j p).mp hc)
    have hj := htc j
    rw [if_neg hpj, Nat.add_zero] at hj
    by_cases hjp : j = p
    · subst hjp
      rw [hts1p] at ht4
      obtain rfl := Option.some.inj ht4
      show tp.mines_surrounding = trueMineCount ts2 w j
      rw [← hj]
      exact hadj j tp hp
    · rw [hts1n j hjp] at ht4
      rw [← hj]
      exact hadj j t4 ht4

/-- Setting a mine on the safe tile `q` and incrementing all of `q`'s Moore
neighbours preserves the adjacency invariant. -/
theorem adjOK_add_mine {ts : List Tile} {w q : Nat} (hw : 0 < w)
    (hadj : adjOK ts w) {tq : Tile} (hq : ts[q]? = some tq) (hm : tq.mine = false) :
    adjOK ((get_1d_manhattan q w).foldl
      (fun acc s => modifyTile acc s
        (fun t => { t with mines_surrounding := t.mines_surrounding + 1 }))
      (modifyTile ts q (fun t => { t with mine := true }))) w := by
  intro j t4 ht4
  set ts3 := modifyTile ts q (fun t => { t with mine := true }) with hts3
  set ts4 := (get_1d_manhattan q w).foldl
      (fun acc s => modifyTile acc s
        (fun t => { t with mines_surrounding := t.mines_surrounding + 1 })) ts3 with hts4
  have hnd := get_1d_manhattan_nodup hw q
  have hts4j : ∀ n : Nat, ts4[n]? = if n ∈ get_1d_manhattan q w
      then (ts3[n]?).map (fun t => { t with mines_surrounding := t.mines_surrounding + 1 })
      else ts3[n]? := fun n => getElem?_foldl_modify_nodup _ _ _ _ hnd
  have hmine4 : ∀ n : Nat, (ts4[n]?).map Tile.mine = (ts3[n]?).map Tile.mine :=
    fun n => foldl_modify_mine
      (fun t => { t with mines_surrounding := t.mines_surrounding + 1 })
      (fun _ => rfl) _ _ n
  have hts3q : ts3[q]? = some { tq with mine := true } := by
    rw [hts3, getElem?_modifyTile, if_pos rfl, hq]
    rfl
  have hts3n : ∀ n : Nat, n ≠ q → ts3[n]? = ts[n]? := fun n hn => by
    rw [hts3, getElem?_modifyTile, if_neg (fun he => hn he.symm)]
  have htc : ∀ jj : Nat, trueMineCount ts4 w jj =
      trueMineCount ts w jj + (if q ∈ get_1d_manhattan jj w then 1 else 0) := by
    intro jj
    rw [show trueMineCount ts4 w jj = trueMineCount ts3 w jj from
      trueMineCount_congr hmine4 jj]
    rw [trueMineCount_eq_countP, trueMineCount_eq_countP]
    refine countP_true_to_false (get_1d_manhattan_nodup hw jj)
      (fun n hn => by rw [hts3n n hn]) ?_ ?_
    · rw [hts3q]
      rfl
    · rw [hq]
      simpa using hm
  by_cases hjm : j ∈ get_1d_manhattan q w
  · rw [hts4j j, if_pos hjm] at ht4
    obtain ⟨t3, ht3, rfl⟩ := Option.map_eq_some'.mp ht4
    have hqj : q ∈ get_1d_manhattan j w := (get_1d_manhattan_symm hw q j).mp hjm
    have hj_ne_q : j ≠ q := fun he => get_1d_manhattan_not_self hw q (he ▸ hjm)
    have ht3' : ts[j]? = some t3 := by
      rw [← hts3n j hj_ne_q]
      exact ht3
    have hc := hadj j t3 ht3'
    have hj := htc j
    rw [if_pos hqj] at hj
    show t3.mines_surrounding + 1 = trueMineCount ts4 w j
    omega
  · rw [hts4j j, if_neg hjm] at ht4
    have hqj : q ∉ get_1d_manhattan j w :=
      fun hc => hjm ((get_1d_manhattan_symm hw j q).mp hc)
    have hj := htc j
    rw [if_neg hqj, Nat.add_zero] at hj
    by_cases hjq : j = q
    · subst hjq
      rw [hts3q] at ht4
      obtain rfl := Option.some.inj ht4
      show tq.mines_surrounding = trueMineCount ts4 w j
      rw [hj]
      exact hadj j tq hq
    · rw [hts3n j hjq] at ht4
      rw [hj]
      exact hadj j t4 ht4

/-! ## Claim C10 -/

theorem Board.uncover_tile_inv {b b' : Board} {x y r : Nat}
    (hw : 0 < b.width) (hadj : adjCorrect b)
    (h : b.uncover_tile x y r = some b') : 0 < b'.width ∧ adjCorrect b' := by
  obtain ⟨hwidth, -, -, -, -⟩ := Board.uncover_tile_fields h
  refine ⟨by rw [hwidth]; exact hw, ?_⟩
  simp only [Board.uncover_tile] at h
  split at h
  · cases h
  · next tile heq =>
    split at h
    · next hcond =>
      split at h
      · cases h
      · next repl hrepl =>
        cases h
        have hmem : repl ∈ (((get_1d_manhattan (get_1d x y b.width) b.width).foldl
            (fun acc s => modifyTile acc s
              (fun t => { t with mines_surrounding := t.mines_surrounding - 1 }))
            (modifyTile b.tiles (get_1d x y b.width)
              (fun t => { t with mine := false }))).enum.filter
            (fun p => ! p.2.mine)).map Prod.fst :=
          List.mem_iff_getElem?.mpr ⟨_, hrepl⟩
        obtain ⟨pr, hprmem, hpr1⟩ := List.mem_map.mp hmem
        obtain ⟨i2, t2⟩ := pr
        obtain rfl : i2 = repl := hpr1
        obtain ⟨henum, hnm⟩ := List.mem_filter.mp hprmem
        have ht2 := List.mk_mem_enum_iff_getElem?.mp henum
        have ht2m : t2.mine = false := by
          simpa using hnm
        have hadj2 := adjOK_remove_mine hw hadj heq hcond.1
        have hadj4 := adjOK_add_mine hw hadj2 ht2 ht2m
        refine adjCorrect_of_proj ?_ (fun n => Board.finish_uncover_proj _ _ x y n) ?_
        · exact (Board.finish_uncover_fields _ _ x y).2.1
        · exact hadj4
    · split at h
      · cases h
        exact @adjCorrect_of_proj b _ rfl
          (fun n => Board.end_game_proj b false n) hadj
      · cases h
        exact @adjCorrect_of_proj b _ ((Board.finish_uncover_fields b _ x y).2.1)
          (fun n => Board.finish_uncover_proj b _ x y n) hadj

theorem Board.match_step_inv {b b1 : Board} {x y : Nat} {u : PushState} {r : Nat}
    (hw : 0 < b.width) (hadj : adjCorrect b)
    (h : b.match_step x y u r = some b1) : 0 < b1.width ∧ adjCorrect b1 := by
  simp only [Board.match_step] at h
  split at h
  · cases h
  · split at h
    · exact Board.uncover_tile_inv hw hadj h
    · split at h
      · refine foldl_chordStep_inv r (fun bb => 0 < bb.width ∧ adjCorrect bb)
          (fun bb c b2 hP hs => ?_) _ b b1 ⟨hw, hadj⟩ h
        rcases chordStep_cases hs with rfl | hu
        · exact hP
        · exact Board.uncover_tile_inv hP.1 hP.2 hu
      · cases h
        exact ⟨hw, hadj⟩
    · split at h
      · cases h
        constructor
        · split <;> exact hw
        · split <;>
            exact @adjCorrect_of_proj b _ rfl
              (fun n => map_proj_modifyTile mineCountOf b.tiles (get_1d x y b.width) n
                (fun t => { t with state := State.Covered }) (fun _ => rfl))
              hadj
      · cases h
    · split at h
      · split at h
        · cases h
          constructor
          · split <;> exact hw
          · split <;>
              exact @adjCorrect_of_proj b _ rfl
                (fun n => map_proj_modifyTile mineCountOf b.tiles (get_1d x y b.width) n
                  (fun t => { t with state := State.Flagged }) (fun _ => rfl))
                hadj
        · cases h
      · cases h
        exact ⟨hw, hadj⟩
    · cases h
      exact ⟨hw, hadj⟩

theorem Board.win_check_inv {b : Board} (hw : 0 < b.width) (hadj : adjCorrect b) :
    0 < (b.win_check).width ∧ adjCorrect (b.win_check) := by
  rw [Board.win_check_eq]
  split
  · split
    · exact ⟨hw, @adjCorrect_of_proj b _ rfl
        (fun n => Board.end_game_proj b true n) hadj⟩
    · exact ⟨hw, hadj⟩
  · exact ⟨hw, hadj⟩

theorem Board.push_state_inv {b b' : Board} {x y : Nat} {u : PushState} {r : Nat}
    (hw : 0 < b.width) (hadj : adjCorrect b)
    (h : b.push_state x y u r = some b') : 0 < b'.width ∧ adjCorrect b' := by
  rw [Board.push_state] at h
  split at h
  · cases h
    exact ⟨hw, hadj⟩
  · cases hms : b.match_step x y u r with
    | none => rw [hms] at h; cases h
    | some b1 =>
      rw [hms, Option.map_some'] at h
      cases h
      obtain ⟨h1, h2⟩ := Board.match_step_inv hw hadj hms
      exact Board.win_check_inv h1 h2

theorem reachable_inv {b : Board} (h : Reachable b) : 0 < b.width ∧ adjCorrect b := by
  induction h with
  | base w h M mv b hlen hcnt hok =>
    obtain ⟨hM, -, hwidth, -, -, -, -, hlen', hget⟩ := Board.new_ok hok
    have hwpos : 0 < w := by
      rcases Nat.eq_zero_or_pos w with rfl | hpos
      · rw [Nat.zero_mul] at hM; omega
      · exact hpos
    refine ⟨by rw [hwidth]; exact hwpos, ?_⟩
    intro j t hjt
    rw [hget j] at hjt
    obtain ⟨m, hm, rfl⟩ := Option.map_eq_some'.mp hjt
    show mineTotalAt mv w j = trueMineCount b.tiles b.width j
    rw [hwidth]
    unfold mineTotalAt
    rw [foldl_add_bool, Nat.zero_add, List.countP_filterMap, trueMineCount_eq_countP]
    refine List.countP_congr (fun n _ => ?_)
    rw [hget n]
    cases hmv : mv[n]? <;> simp [Tile.new]
  | step b x y u r b' hb hp ih => exact Board.push_state_inv ih.1 ih.2 hp

/-- **C10**: on every reachable board state, every in-range Moore neighbour
of a mine has a stored `adjacent_mine_count` of at least 1 (it counted that
mine), so the relocation decrement `mines_surrounding -= 1` on each
neighbour of the tile losing its mine can never underflow the unsigned
counter. -/
theorem C10_relocation_no_underflow {b : Board} (hreach : Reachable b)
    {p : Nat} {t : Tile} (hp : b.tiles[p]? = some t) (hm : t.mine = true) :
    ∀ j ∈ get_1d_manhattan p b.width, ∀ tj : Tile, b.tiles[j]? = some tj →
      1 ≤ tj.mines_surrounding := by
  obtain ⟨hw, hadj⟩ := reachable_inv hreach
  intro j hj tj htj
  rw [hadj j tj htj, trueMineCount_eq_countP]
  refine List.countP_pos.mpr ⟨p, (get_1d_manhattan_symm hw p j).mp hj, ?_⟩
  rw [hp]
  simpa using hm

/-- Witness for C10: the fresh 2×1 board with its mine on cell 0; cell 1 is
a neighbour of the mine and its stored count 1 is indeed at least 1. -/
theorem C10_relocation_no_underflow_witness :
    1 ≤ (⟨State.Covered, false, 1⟩ : Tile).mines_surrounding :=
  @C10_relocation_no_underflow
    ⟨[⟨State.Covered, true, 0⟩, ⟨State.Covered, false, 1⟩], none, 2, 1, 0, 0, true⟩
    (Reachable.base 2 1 1 [true, false] _ (by decide) (by decide) (by rfl))
    0 ⟨State.Covered, true, 0⟩ (by rfl) (by rfl) 1 (by decide)
    ⟨State.Covered, false, 1⟩ (by rfl)

/-! ## Flood-fill basics (C6) -/

theorem map_setU_setU (o : Option Tile) :
    (o.map (fun t => { t with state := State.Uncovered })).map
      (fun t => { t with state := State.Uncovered }) =
    o.map (fun t => { t with state := State.Uncovered }) := by
  cases o <;> rfl

theorem setU_of_uncovered {t : Tile} (h : t.state = State.Uncovered) :
    ({ t with state := State.Uncovered } : Tile) = t := by
  cases t
  simp_all

theorem map_setU_state (o : Option Tile) (t : Tile)
    (h : (o.map (fun t => { t with state := State.Uncovered })) = some t) :
    t.state = State.Uncovered := by
  cases o with
  | none => cases h
  | some t0 => cases h; rfl

theorem tileStateAt_map_setU {ts : List Tile} {j : Nat} {t : Tile}
    (h : ts[j]? = some t) :
    ((ts[j]?).map (fun t => { t with state := State.Uncovered })).map Tile.state =
      some State.Uncovered := by
  rw [h]
  rfl

theorem Close_nil {ts : List Tile} {w j : Nat} (h : Close ts w [] j) : False := by
  induction h with
  | seed t ht => cases ht
  | step t u hc hz hexp hu hcov ih => exact ih

theorem Close_covered_or_seed {ts : List Tile} {w : Nat} {seeds : List Nat} {j : Nat}
    (h : Close ts w seeds j) :
    j ∈ seeds ∨ tileStateAt ts j = some State.Covered := by
  induction h with
  | seed t ht => exact Or.inl ht
  | step t u hc hz hexp hu hcov ih => exact Or.inr hcov

theorem mem_uniqueList_aux (l : List Nat) :
    ∀ (acc : List Nat) (x : Nat),
      x ∈ l.foldl (fun acc x => if x ∈ acc then acc else acc ++ [x]) acc ↔
        x ∈ acc ∨ x ∈ l := by
  induction l with
  | nil => intro acc x; simp
  | cons a rest ih =>
    intro acc x
    rw [List.foldl_cons]
    by_cases ha : a ∈ acc
    · rw [if_pos ha, ih]
      constructor
      · rintro (hx | hx)
        · exact Or.inl hx
        · exact Or.inr (List.mem_cons_of_mem a hx)
      · rintro (hx | hx)
        · exact Or.inl hx
        · rcases List.mem_cons.mp hx with rfl | hx
          · exact Or.inl ha
          · exact Or.inr hx
    · rw [if_neg ha, ih]
      simp only [List.mem_append, List.mem_cons, List.mem_singleton,
        List.not_mem_nil, or_false]
      tauto

theorem mem_uniqueList (l : List Nat) (x : Nat) : x ∈ uniqueList l ↔ x ∈ l := by
  rw [uniqueList, mem_uniqueList_aux]
  simp

theorem nodup_uniqueList_aux (l : List Nat) :
    ∀ acc : List Nat, acc.Nodup →
      (l.foldl (fun acc x => if x ∈ acc then acc else acc ++ [x]) acc).Nodup := by
  induction l with
  | nil => intro acc h; exact h
  | cons a rest ih =>
    intro acc h
    rw [List.foldl_cons]
    by_cases ha : a ∈ acc
    · rw [if_pos ha]; exact ih acc h
    · rw [if_neg ha]
      refine ih _ ?_
      rw [List.nodup_append]
      exact ⟨h, List.nodup_singleton a, fun x hx hx' => ha (by
        rcases List.mem_singleton.mp hx' with rfl
        exact hx)⟩

theorem nodup_uniqueList (l : List Nat) : (uniqueList l).Nodup :=
  nodup_uniqueList_aux l [] List.nodup_nil

theorem surroundingsOf_nodup (width : Nat) (ts : List Tile) (working : List Nat) :
    (surroundingsOf width ts working).Nodup :=
  List.Nodup.filter _ (nodup_uniqueList _)

theorem mem_surroundingsOf {width : Nat} {ts : List Tile} {working : List Nat}
    {i : Nat} :
    i ∈ surroundingsOf width ts working ↔
      (∃ t ∈ working, i ∈ get_1d_manhattan t width) ∧
        tileStateAt ts i = some State.Covered := by
  unfold surroundingsOf
  rw [List.mem_filter, mem_uniqueList, List.mem_flatten]
  constructor
  · rintro ⟨⟨l, hl, hil⟩, hp⟩
    obtain ⟨t, ht, rfl⟩ := List.mem_map.mp hl
    refine ⟨⟨t, ht, hil⟩, ?_⟩
    rcases hts : ts[i]? with _ | n
    · rw [hts] at hp; cases hp
    · rw [hts] at hp
      simp only [decide_eq_true_eq] at hp
      rw [tileStateAt, hts]
      simp [hp]
  · rintro ⟨⟨t, ht, hil⟩, hst⟩
    refine ⟨⟨get_1d_manhattan t width, List.mem_map.mpr ⟨t, ht, rfl⟩, hil⟩, ?_⟩
    rcases hts : ts[i]? with _ | n
    · rw [tileStateAt, hts] at hst; cases hst
    · rw [tileStateAt, hts] at hst
      have hnc : n.state = State.Covered := by
        simpa using hst
      simp [hnc]

/-! ## Flood-fill: one iteration (C6) -/

theorem markUncovered_getElem (ts : List Tile) (wk : List Nat) (j : Nat) :
    (markUncovered ts wk)[j]? =
      if j ∈ wk then (ts[j]?).map (fun t => { t with state := State.Uncovered })
      else ts[j]? :=
  getElem?_foldl_modify_idem (fun t => { t with state := State.Uncovered })
    (fun _ => rfl) wk ts j

theorem map_count_of_proj {o o' : Option Tile}
    (h : o'.map mineCountOf = o.map mineCountOf) :
    o'.map Tile.mines_surrounding = o.map Tile.mines_surrounding := by
  cases o <;> cases o' <;> simp_all [mineCountOf, Prod.ext_iff]

theorem foldl_procStep_spec (surr : List Nat) :
    ∀ acc : List Nat × List Tile,
      (surr.foldl procStep acc).1 =
        acc.1 ++ surr.filter
          (fun t => decide ((((acc.2)[t]?).map Tile.mines_surrounding).getD 0 = 0)) ∧
      ∀ j : Nat, ((surr.foldl procStep acc).2)[j]? =
        if j ∈ surr.filter
            (fun t => ! decide ((((acc.2)[t]?).map Tile.mines_surrounding).getD 0 = 0))
        then ((acc.2)[j]?).map (fun t => { t with state := State.Uncovered })
        else (acc.2)[j]? := by
  induction surr with
  | nil => intro acc; exact ⟨by simp, fun j => by simp⟩
  | cons a rest ih =>
    intro acc
    rw [List.foldl_cons]
    by_cases ha : (((acc.2)[a]?).map Tile.mines_surrounding).getD 0 = 0
    · have hstep : procStep acc a = (acc.1 ++ [a], acc.2) := by
        rw [procStep, if_pos ha]
      rw [hstep]
      obtain ⟨ih1, ih2⟩ := ih (acc.1 ++ [a], acc.2)
      constructor
      · rw [ih1, List.filter_cons_of_pos (by simpa using ha), List.append_assoc,
          List.singleton_append]
      · intro j
        rw [ih2 j, List.filter_cons_of_neg (by simpa using ha)]
    · have hstep : procStep acc a =
          (acc.1, modifyTile acc.2 a (fun t => { t with state := State.Uncovered })) := by
        rw [procStep, if_neg ha]
      rw [hstep]
      obtain ⟨ih1, ih2⟩ := ih
        (acc.1, modifyTile acc.2 a (fun t => { t with state := State.Uncovered }))
      have hcnt : ∀ t : Nat,
          (((modifyTile acc.2 a (fun t => { t with state := State.Uncovered }))[t]?).map
            Tile.mines_surrounding) = ((acc.2)[t]?).map Tile.mines_surrounding :=
        fun t => map_proj_modifyTile _ _ _ _ _ (fun _ => rfl)
      constructor
      · rw [ih1, List.filter_cons_of_neg (by simpa using ha)]
        congr 1
        refine List.filter_congr (fun t _ => ?_)
        rw [hcnt t]
      · intro j
        rw [ih2 j, List.filter_cons_of_pos (by simpa using ha)]
        have hflt : (rest.filter (fun t => ! decide ((((modifyTile acc.2 a
            (fun t => { t with state := State.Uncovered }))[t]?).map
              Tile.mines_surrounding).getD 0 = 0))) =
            (rest.filter (fun t => ! decide ((((acc.2)[t]?).map
              Tile.mines_surrounding).getD 0 = 0))) := by
          refine List.filter_congr (fun t _ => ?_)
          rw [hcnt t]
        rw [hflt, getElem?_modifyTile]
        by_cases hjr : j ∈ rest.filter
            (fun t => ! decide ((((acc.2)[t]?).map Tile.mines_surrounding).getD 0 = 0))
        · rw [if_pos hjr, if_pos (List.mem_cons_of_mem a hjr)]
          by_cases hja : a = j
          · rw [if_pos hja, hja, map_setU_setU]
          · rw [if_neg hja]
        · rw [if_neg hjr]
          by_cases hja : a = j
          · rw [if_pos hja, hja, if_pos (List.mem_cons_self j _)]
          · rw [if_neg hja, if_neg (by
              intro hc
              rcases List.mem_cons.mp hc with rfl | hc
              · exact hja rfl
              · exact hjr hc)]

/-! ## Flood-fill: facts about one iteration (C6) -/

section IterationC6

variable (w : Nat) (ts : List Tile) (wk : List Nat)

theorem stateAt_markUncovered_not_mem {u : Nat} (hu : u ∉ wk) :
    tileStateAt (markUncovered ts wk) u = tileStateAt ts u := by
  rw [tileStateAt, tileStateAt, markUncovered_getElem, if_neg hu]

theorem stateAt_markUncovered_mem {u : Nat} (hu : u ∈ wk) :
    tileStateAt (markUncovered ts wk) u ≠ some State.Covered := by
  rw [tileStateAt, markUncovered_getElem, if_pos hu]
  cases ts[u]? <;> simp

theorem countAt_markUncovered (n : Nat) :
    tileCountAt (markUncovered ts wk) n = tileCountAt ts n := by
  rw [tileCountAt, tileCountAt, markUncovered_getElem]
  split
  · cases ts[n]? <;> rfl
  · rfl

theorem mem_surr_iff {u : Nat} :
    u ∈ surroundingsOf w (markUncovered ts wk) wk ↔
      (∃ t ∈ wk, u ∈ get_1d_manhattan t w) ∧ u ∉ wk ∧
        tileStateAt ts u = some State.Covered := by
  rw [mem_surroundingsOf]
  constructor
  · rintro ⟨hex, hst⟩
    have hu : u ∉ wk := fun hu => stateAt_markUncovered_mem ts wk hu hst
    refine ⟨hex, hu, ?_⟩
    rw [← stateAt_markUncovered_not_mem ts wk hu]
    exact hst
  · rintro ⟨hex, hu, hst⟩
    refine ⟨hex, ?_⟩
    rw [stateAt_markUncovered_not_mem ts wk hu]
    exact hst

theorem surr_tile_exists {u : Nat}
    (hu : u ∈ surroundingsOf w (markUncovered ts wk) wk) :
    ∃ t : Tile, (markUncovered ts wk)[u]? = some t ∧ t.state = State.Covered ∧
      ts[u]? = some t := by
  obtain ⟨-, hnw, hst⟩ := (mem_surr_iff w ts wk).mp hu
  rw [tileStateAt] at hst
  rcases hts : ts[u]? with _ | t
  · rw [hts] at hst; cases hst
  · rw [hts] at hst
    have : t.state = State.Covered := by
      simpa using hst
    refine ⟨t, ?_, this, rfl⟩
    rw [markUncovered_getElem, if_neg hnw, hts]

theorem countAt_processSurroundings (surr : List Nat) (n : Nat) :
    tileCountAt ((processSurroundings (markUncovered ts wk) surr).2) n =
      tileCountAt ts n := by
  unfold tileCountAt
  rw [processSurroundings, map_count_of_proj (foldl_procStep_proj surr _ n)]
  have h := countAt_markUncovered ts wk n
  unfold tileCountAt at h
  exact h

theorem nonzero_pred_iff {u : Nat}
    (hu : u ∈ surroundingsOf w (markUncovered ts wk) wk) :
    ((! decide ((((markUncovered ts wk)[u]?).map Tile.mines_surrounding).getD 0 = 0))
        = true) ↔
      ¬ tileCountAt ts u = some 0 := by
  obtain ⟨t, ht1, -, hts⟩ := surr_tile_exists w ts wk hu
  have hc : tileCountAt ts u = some t.mines_surrounding := by
    rw [tileCountAt, hts]
    rfl
  rw [ht1, hc]
  simp

theorem mem_w2_iff {u : Nat} :
    u ∈ (processSurroundings (markUncovered ts wk)
        (surroundingsOf w (markUncovered ts wk) wk)).1 ↔
      u ∈ surroundingsOf w (markUncovered ts wk) wk ∧ tileCountAt ts u = some 0 := by
  rw [processSurroundings,
    (foldl_procStep_spec (surroundingsOf w (markUncovered ts wk) wk) ([], _)).1,
    List.nil_append, List.mem_filter]
  constructor
  · rintro ⟨hus, hp⟩
    refine ⟨hus, ?_⟩
    obtain ⟨t, ht1, -, hts⟩ := surr_tile_exists w ts wk hus
    rw [ht1] at hp
    simp only [Option.map_some', Option.getD_some, decide_eq_true_eq] at hp
    rw [tileCountAt, hts]
    simp [hp]
  · rintro ⟨hus, hc⟩
    refine ⟨hus, ?_⟩
    obtain ⟨t, ht1, -, hts⟩ := surr_tile_exists w ts wk hus
    rw [ht1]
    have : t.mines_surrounding = 0 := by
      rw [tileCountAt, hts] at hc
      simpa using hc
    simp [this]

theorem ts2_getElem_wk {j : Nat} (hj : j ∈ wk) :
    ((processSurroundings (markUncovered ts wk)
        (surroundingsOf w (markUncovered ts wk) wk)).2)[j]? =
      (ts[j]?).map (fun t => { t with state := State.Uncovered }) := by
  rw [processSurroundings,
    (foldl_procStep_spec (surroundingsOf w (markUncovered ts wk) wk) ([], _)).2 j,
    if_neg, markUncovered_getElem, if_pos hj]
  intro hc
  obtain ⟨hsurr, -⟩ := List.mem_filter.mp hc
  exact ((mem_surr_iff w ts wk).mp hsurr).2.1 hj

theorem ts2_getElem_surr_marked {j : Nat}
    (hj : j ∈ surroundingsOf w (markUncovered ts wk) wk)
    (hnz : ¬ tileCountAt ts j = some 0) :
    ((processSurroundings (markUncovered ts wk)
        (surroundingsOf w (markUncovered ts wk) wk)).2)[j]? =
      (ts[j]?).map (fun t => { t with state := State.Uncovered }) := by
  rw [processSurroundings,
    (foldl_procStep_spec (surroundingsOf w (markUncovered ts wk) wk) ([], _)).2 j,
    if_pos (List.mem_filter.mpr ⟨hj, (nonzero_pred_iff w ts wk hj).mpr hnz⟩),
    markUncovered_getElem, if_neg ((mem_surr_iff w ts wk).mp hj).2.1]

theorem ts2_getElem_untouched {j : Nat} (hjw : j ∉ wk)
    (hjs : j ∉ surroundingsOf w (markUncovered ts wk) wk) :
    ((processSurroundings (markUncovered ts wk)
        (surroundingsOf w (markUncovered ts wk) wk)).2)[j]? = ts[j]? := by
  rw [processSurroundings,
    (foldl_procStep_spec (surroundingsOf w (markUncovered ts wk) wk) ([], _)).2 j,
    if_neg (fun hc => hjs (List.mem_filter.mp hc).1), markUncovered_getElem,
    if_neg hjw]

theorem ts2_getElem_w2 {j : Nat}
    (hj : j ∈ (processSurroundings (markUncovered ts wk)
      (surroundingsOf w (markUncovered ts wk) wk)).1) :
    ((processSurroundings (markUncovered ts wk)
        (surroundingsOf w (markUncovered ts wk) wk)).2)[j]? = ts[j]? := by
  obtain ⟨hjs, hjz⟩ := (mem_w2_iff w ts wk).mp hj
  rw [processSurroundings,
    (foldl_procStep_spec (surroundingsOf w (markUncovered ts wk) wk) ([], _)).2 j,
    if_neg, markUncovered_getElem, if_neg ((mem_surr_iff w ts wk).mp hjs).2.1]
  intro hc
  obtain ⟨-, hp⟩ := List.mem_filter.mp hc
  exact ((nonzero_pred_iff w ts wk hjs).mp hp) hjz

theorem ts2_length :
    ((processSurroundings (markUncovered ts wk)
        (surroundingsOf w (markUncovered ts wk) wk)).2).length = ts.length := by
  rw [processSurroundings, foldl_procStep_snd_length, markUncovered_length]

theorem ts2_pointwise (j : Nat) :
    ((processSurroundings (markUncovered ts wk)
        (surroundingsOf w (markUncovered ts wk) wk)).2)[j]? = ts[j]? ∨
    ((processSurroundings (markUncovered ts wk)
        (surroundingsOf w (markUncovered ts wk) wk)).2)[j]? =
      (ts[j]?).map (fun t => { t with state := State.Uncovered }) := by
  by_cases hjw : j ∈ wk
  · exact Or.inr (ts2_getElem_wk w ts wk hjw)
  by_cases hjs : j ∈ surroundingsOf w (markUncovered ts wk) wk
  · by_cases hjz : tileCountAt ts j = some 0
    · exact Or.inl (ts2_getElem_w2 w ts wk ((mem_w2_iff w ts wk).mpr ⟨hjs, hjz⟩))
    · exact Or.inr (ts2_getElem_surr_marked w ts wk hjs hjz)
  · exact Or.inl (ts2_getElem_untouched w ts wk hjw hjs)

/-- A tile still covered after the iteration was covered before it, and is
not on the worklist. -/
theorem ts2_covered {u : Nat}
    (hcov : tileStateAt ((processSurroundings (markUncovered ts wk)
      (surroundingsOf w (markUncovered ts wk) wk)).2) u = some State.Covered) :
    u ∉ wk ∧ tileStateAt ts u = some State.Covered := by
  rcases ts2_pointwise w ts wk u with hrel | hrel
  · have hst : tileStateAt ts u = some State.Covered := by
      rw [tileStateAt, ← hrel]
      exact hcov
    refine ⟨?_, hst⟩
    intro huw
    have := ts2_getElem_wk w ts wk huw
    rw [tileStateAt, this] at hcov
    rcases hts : ts[u]? with _ | t
    · rw [hts] at hcov; cases hcov
    · rw [hts] at hcov
      simp at hcov
  · exfalso
    rw [tileStateAt, hrel] at hcov
    rcases hts : ts[u]? with _ | t
    · rw [hts] at hcov; cases hcov
    · rw [hts] at hcov
      simp at hcov

theorem surr_subset_close
    (hmem : ∀ t ∈ wk, t < ts.length ∧ tileCountAt ts t = some 0)
    {u : Nat} (hu : u ∈ surroundingsOf w (markUncovered ts wk) wk) :
    Close ts w wk u := by
  obtain ⟨⟨t, ht, hut⟩, -, hcov⟩ := (mem_surr_iff w ts wk).mp hu
  exact Close.step t u (Close.seed t ht) (hmem t ht).2 (Or.inl ht) hut hcov

/-- Everything reachable after the iteration was uncovered before it or was
already reachable before it.  (The `⊆` direction of the iteration's
set equation.) -/
theorem step_sub
    (hmem : ∀ t ∈ wk, t < ts.length ∧ tileCountAt ts t = some 0) {j : Nat}
    (h : Close ((processSurroundings (markUncovered ts wk)
        (surroundingsOf w (markUncovered ts wk) wk)).2) w
      ((processSurroundings (markUncovered ts wk)
        (surroundingsOf w (markUncovered ts wk) wk)).1) j) :
    tileStateAt ts j = some State.Uncovered ∨ Close ts w wk j := by
  induction h with
  | seed t ht =>
    exact Or.inr (surr_subset_close w ts wk hmem ((mem_w2_iff w ts wk).mp ht).1)
  | step t u hc hz hexp hu hcov ih =>
    obtain ⟨hunw, hucov⟩ := ts2_covered w ts wk hcov
    have htcov : tileStateAt ts t = some State.Covered := by
      rcases hexp with htw | htc
      · exact ((mem_surr_iff w ts wk).mp ((mem_w2_iff w ts wk).mp htw).1).2.2
      · exact (ts2_covered w ts wk htc).2
    have htclose : Close ts w wk t := by
      rcases ih with htu | htcl
      · rw [htcov] at htu
        cases htu
      · exact htcl
    have htz : tileCountAt ts t = some 0 := by
      rw [← countAt_processSurroundings ts wk
        (surroundingsOf w (markUncovered ts wk) wk) t]
      exact hz
    exact Or.inr (Close.step t u htclose htz (Or.inr htcov) hu hucov)

/-- Everything uncovered or reachable before the iteration is uncovered or
still reachable after it.  (The `⊇` direction of the set equation.) -/
theorem step_sup
    (hmem : ∀ t ∈ wk, t < ts.length ∧ tileCountAt ts t = some 0) {j : Nat}
    (h : tileStateAt ts j = some State.Uncovered ∨ Close ts w wk j) :
    tileStateAt ((processSurroundings (markUncovered ts wk)
        (surroundingsOf w (markUncovered ts wk) wk)).2) j = some State.Uncovered ∨
    Close ((processSurroundings (markUncovered ts wk)
        (surroundingsOf w (markUncovered ts wk) wk)).2) w
      ((processSurroundings (markUncovered ts wk)
        (surroundingsOf w (markUncovered ts wk) wk)).1) j := by
  rcases h with hunc | hclose
  · left
    rcases hts : ts[j]? with _ | t
    · rw [tileStateAt, hts] at hunc
      cases hunc
    · have htst : t.state = State.Uncovered := by
        rw [tileStateAt, hts] at hunc
        simpa using hunc
      rcases ts2_pointwise w ts wk j with hrel | hrel
      · rw [tileStateAt, hrel, hts]
        simp [htst]
      · rw [tileStateAt, hrel, hts]
        rfl
  · induction hclose with
    | seed t ht =>
      left
      have hlen := (hmem t ht).1
      rw [tileStateAt, ts2_getElem_wk w ts wk ht,
        List.getElem?_eq_getElem hlen]
      rfl
    | step t u hc hz hexp hu hcov ih =>
      have hucovt : ∃ tu : Tile, ts[u]? = some tu ∧ tu.state = State.Covered := by
        rw [tileStateAt] at hcov
        rcases hts : ts[u]? with _ | tu
        · rw [hts] at hcov; cases hcov
        · rw [hts] at hcov
          exact ⟨tu, rfl, by simpa using hcov⟩
      obtain ⟨tu, htu, htucov⟩ := hucovt
      by_cases huw : u ∈ wk
      · left
        rw [tileStateAt, ts2_getElem_wk w ts wk huw, htu]
        rfl
      by_cases hus : u ∈ surroundingsOf w (markUncovered ts wk) wk
      · by_cases huz : tileCountAt ts u = some 0
        · exact Or.inr (Close.seed u ((mem_w2_iff w ts wk).mpr ⟨hus, huz⟩))
        · left
          rw [tileStateAt, ts2_getElem_surr_marked w ts wk hus huz, htu]
          rfl
      · by_cases htw : t ∈ wk
        · exact absurd ((mem_surr_iff w ts wk).mpr
            ⟨⟨t, htw, hu⟩, huw, by rw [tileStateAt, htu]; simp [htucov]⟩) hus
        · have htcov : tileStateAt ts t = some State.Covered := by
            rcases hexp with h1 | h1
            · exact absurd h1 htw
            · exact h1
          have htunmarked : ((processSurroundings (markUncovered ts wk)
              (surroundingsOf w (markUncovered ts wk) wk)).2)[t]? = ts[t]? := by
            by_cases hts' : t ∈ surroundingsOf w (markUncovered ts wk) wk
            · exact ts2_getElem_w2 w ts wk ((mem_w2_iff w ts wk).mpr ⟨hts', hz⟩)
            · exact ts2_getElem_untouched w ts wk htw hts'
          rcases ih with htu2 | htcl2
          · exfalso
            rw [tileStateAt, htunmarked] at htu2
            rw [tileStateAt] at htcov
            rw [htu2] at htcov
            cases htcov
          · refine Or.inr (Close.step t u htcl2 ?_ ?_ hu ?_)
            · rw [countAt_processSurroundings]
              exact hz
            · right
              rw [tileStateAt, htunmarked]
              rw [tileStateAt] at htcov
              exact htcov
            · rw [tileStateAt, ts2_getElem_untouched w ts wk huw hus, htu]
              simp [htucov]

end IterationC6

/-- Pointwise uncovering can only decrease the number of covered tiles. -/
theorem coveredCount_le :
    ∀ (ts ts' : List Tile),
      (∀ j : Nat, ts'[j]? = ts[j]? ∨
        ts'[j]? = (ts[j]?).map (fun t => { t with state := State.Uncovered })) →
      coveredCount ts' ≤ coveredCount ts := by
  intro ts
  induction ts with
  | nil =>
    intro ts' hpt
    cases ts' with
    | nil => exact Nat.le_refl _
    | cons a l =>
      have := hpt 0
      simp at this
  | cons t0 rest ih =>
    intro ts' hpt
    cases ts' with
    | nil => exact Nat.zero_le _
    | cons t0' rest' =>
      have h0 := hpt 0
      simp at h0
      have hS : ∀ j : Nat, rest'[j]? = rest[j]? ∨
          rest'[j]? = (rest[j]?).map (fun t => { t with state := State.Uncovered }) := by
        intro j
        have := hpt (j + 1)
        simpa using this
      have htail := ih rest' hS
      simp only [coveredCount, List.countP_cons] at htail ⊢
      rcases h0 with h0 | h0 <;> subst h0
      · omega
      · simp
        omega

/-- Pointwise uncovering that actually uncovers some covered tile strictly
decreases the number of covered tiles. -/
theorem coveredCount_lt :
    ∀ (ts ts' : List Tile) (a : Nat),
      (∀ j : Nat, ts'[j]? = ts[j]? ∨
        ts'[j]? = (ts[j]?).map (fun t => { t with state := State.Uncovered })) →
      tileStateAt ts a = some State.Covered →
      tileStateAt ts' a ≠ some State.Covered →
      coveredCount ts' < coveredCount ts := by
  intro ts
  induction ts with
  | nil =>
    intro ts' a hpt ha ha'
    rw [tileStateAt] at ha
    simp at ha
  | cons t0 rest ih =>
    intro ts' a hpt ha ha'
    cases ts' with
    | nil =>
      have := hpt 0
      simp at this
    | cons t0' rest' =>
      have h0 := hpt 0
      simp at h0
      have hS : ∀ j : Nat, rest'[j]? = rest[j]? ∨
          rest'[j]? = (rest[j]?).map (fun t => { t with state := State.Uncovered }) := by
        intro j
        have := hpt (j + 1)
        simpa using this
      cases a with
      | zero =>
        have ht0 : t0.state = State.Covered := by
          rw [tileStateAt] at ha
          simpa using ha
        have ht0' : t0'.state ≠ State.Covered := by
          intro hcc
          apply ha'
          rw [tileStateAt]
          simp [hcc]
        have hle := coveredCount_le rest rest' hS
        simp only [coveredCount, List.countP_cons] at hle ⊢
        simp [ht0, ht0']
        omega
      | succ n =>
        have haT : tileStateAt rest n = some State.Covered := by
          rw [tileStateAt] at ha ⊢
          simpa using ha
        have haT' : tileStateAt rest' n ≠ some State.Covered := by
          intro hc
          apply ha'
          rw [tileStateAt] at hc ⊢
          simpa using hc
        have htail := ih rest' n hS haT haT'
        simp only [coveredCount, List.countP_cons] at htail ⊢
        rcases h0 with h0 | h0 <;> subst h0
        · omega
        · simp
          omega

/-- The worklist produced by one iteration again satisfies the loop
invariant: in range, zero adjacency count, still covered. -/
theorem w2_invariant (w : Nat) (ts : List Tile) (wk : List Nat) :
    ∀ t ∈ (processSurroundings (markUncovered ts wk)
        (surroundingsOf w (markUncovered ts wk) wk)).1,
      t < ((processSurroundings (markUncovered ts wk)
        (surroundingsOf w (markUncovered ts wk) wk)).2).length ∧
      tileCountAt ((processSurroundings (markUncovered ts wk)
        (surroundingsOf w (markUncovered ts wk) wk)).2) t = some 0 ∧
      tileStateAt ((processSurroundings (markUncovered ts wk)
        (surroundingsOf w (markUncovered ts wk) wk)).2) t = some State.Covered := by
  intro t ht
  obtain ⟨hts, htz⟩ := (mem_w2_iff w ts wk).mp ht
  obtain ⟨-, -, htcov⟩ := (mem_surr_iff w ts wk).mp hts
  have hsome : ∃ tu : Tile, ts[t]? = some tu := by
    rcases h : ts[t]? with _ | tu
    · rw [tileStateAt, h] at htcov
      cases htcov
    · exact ⟨tu, rfl⟩
  obtain ⟨tu, htu⟩ := hsome
  have hlt : t < ts.length := by
    by_contra hnl
    rw [List.getElem?_eq_none (Nat.le_of_not_lt hnl)] at htu
    cases htu
  refine ⟨by rw [ts2_length w ts wk]; exact hlt, ?_, ?_⟩
  · rw [countAt_processSurroundings ts wk]
    exact htz
  · rw [tileStateAt, ts2_getElem_w2 w ts wk ht]
    exact htcov

/-- Full characterisation of the flood-fill loop, given enough fuel: a tile
ends uncovered exactly when it is reachable (`Close`) from the worklist, and
every other tile is untouched. -/
theorem clearZerosLoop_spec (w : Nat) :
    ∀ (fuel : Nat) (ts : List Tile) (wk : List Nat),
      (∀ t ∈ wk, t < ts.length ∧ tileCountAt ts t = some 0 ∧
        tileStateAt ts t = some State.Covered) →
      coveredCount ts < fuel →
      ∀ j : Nat,
        (Close ts w wk j →
          (clearZerosLoop w fuel ts wk)[j]? =
            (ts[j]?).map (fun t => { t with state := State.Uncovered })) ∧
        (¬ Close ts w wk j → (clearZerosLoop w fuel ts wk)[j]? = ts[j]?) := by
  intro fuel
  induction fuel with
  | zero =>
    intro ts wk hmem hfuel
    omega
  | succ n ih =>
    intro ts wk hmem hfuel j
    cases wk with
    | nil =>
      exact ⟨fun hc => absurd hc (fun h => Close_nil h), fun _ => rfl⟩
    | cons a rest =>
      have hstep : clearZerosLoop w (n + 1) ts (a :: rest) =
          clearZerosLoop w n
            ((processSurroundings (markUncovered ts (a :: rest))
              (surroundingsOf w (markUncovered ts (a :: rest)) (a :: rest))).2)
            ((processSurroundings (markUncovered ts (a :: rest))
              (surroundingsOf w (markUncovered ts (a :: rest)) (a :: rest))).1) := rfl
      have hmemAB : ∀ t ∈ (a :: rest), t < ts.length ∧ tileCountAt ts t = some 0 :=
        fun t ht => ⟨(hmem t ht).1, (hmem t ht).2.1⟩
      have hmem2 := w2_invariant w ts (a :: rest)
      have hfuel2 : coveredCount ((processSurroundings (markUncovered ts (a :: rest))
          (surroundingsOf w (markUncovered ts (a :: rest)) (a :: rest))).2) < n := by
        have hamem : a ∈ (a :: rest) := List.mem_cons_self a rest
        have hne : tileStateAt ((processSurroundings (markUncovered ts (a :: rest))
            (surroundingsOf w (markUncovered ts (a :: rest)) (a :: rest))).2) a ≠
            some State.Covered := by
          rw [tileStateAt, ts2_getElem_wk w ts (a :: rest) hamem,
            List.getElem?_eq_getElem (hmem a hamem).1]
          simp
        have hlt := coveredCount_lt ts _ a (ts2_pointwise w ts (a :: rest))
          (hmem a hamem).2.2 hne
        omega
      have IH := ih _ _ hmem2 hfuel2 j
      rw [hstep]
      constructor
      · intro hcl
        by_cases hcl2 : Close ((processSurroundings (markUncovered ts (a :: rest))
            (surroundingsOf w (markUncovered ts (a :: rest)) (a :: rest))).2) w
            ((processSurroundings (markUncovered ts (a :: rest))
              (surroundingsOf w (markUncovered ts (a :: rest)) (a :: rest))).1) j
        · rw [IH.1 hcl2]
          rcases ts2_pointwise w ts (a :: rest) j with hrel | hrel
          · rw [hrel]
          · rw [hrel, map_setU_setU]
        · rw [IH.2 hcl2]
          have hj := step_sup w ts (a :: rest) hmemAB (Or.inr hcl)
          rcases hj with hju | hjc
          · rcases Close_covered_or_seed hcl with hjw | hjcov
            · exact ts2_getElem_wk w ts (a :: rest) hjw
            · rcases ts2_pointwise w ts (a :: rest) j with hrel | hrel
              · exfalso
                rw [tileStateAt, hrel] at hju
                rw [tileStateAt] at hjcov
                rw [hju] at hjcov
                simp at hjcov
              · exact hrel
          · exact absurd hjc hcl2
      · intro hcl
        have hcl2 : ¬ Close ((processSurroundings (markUncovered ts (a :: rest))
            (surroundingsOf w (markUncovered ts (a :: rest)) (a :: rest))).2) w
            ((processSurroundings (markUncovered ts (a :: rest))
              (surroundingsOf w (markUncovered ts (a :: rest)) (a :: rest))).1) j := by
          intro hc
          rcases step_sub w ts (a :: rest) hmemAB hc with hju | hjc
          · rcases Close_covered_or_seed hc with hjw2 | hjcov2
            · have hcv := ((mem_surr_iff w ts (a :: rest)).mp
                ((mem_w2_iff w ts (a :: rest)).mp hjw2).1).2.2
              rw [hju] at hcv
              simp at hcv
            · have hcv := (ts2_covered w ts (a :: rest) hjcov2).2
              rw [hju] at hcv
              simp at hcv
          · exact hcl hjc
        rw [IH.2 hcl2]
        have hjw : j ∉ (a :: rest) := fun h => hcl (Close.seed j h)
        have hjs : j ∉ surroundingsOf w (markUncovered ts (a :: rest)) (a :: rest) :=
          fun h => hcl (surr_subset_close w ts (a :: rest) hmemAB h)
        exact ts2_getElem_untouched w ts (a :: rest) hjw hjs

/-- Characterisation of the whole flood fill started from one in-range
zero-count seed: exactly the `Close`-reachable tiles end uncovered, nothing
else changes.  (The seed need not be covered: the first iteration marks it
regardless, and only later worklists must consist of covered tiles.) -/
theorem clearZeros_pointwise (w : Nat) (ts : List Tile) (s : Nat)
    (hs : s < ts.length) (hz : tileCountAt ts s = some 0) (j : Nat) :
    (Close ts w [s] j →
      (clearZerosLoop w (ts.length + 2) ts [s])[j]? =
        (ts[j]?).map (fun t => { t with state := State.Uncovered })) ∧
    (¬ Close ts w [s] j → (clearZerosLoop w (ts.length + 2) ts [s])[j]? = ts[j]?) := by
  have hstep : clearZerosLoop w (ts.length + 2) ts [s] =
      clearZerosLoop w (ts.length + 1)
        ((processSurroundings (markUncovered ts [s])
          (surroundingsOf w (markUncovered ts [s]) [s])).2)
        ((processSurroundings (markUncovered ts [s])
          (surroundingsOf w (markUncovered ts [s]) [s])).1) := rfl
  have hmemAB : ∀ t ∈ [s], t < ts.length ∧ tileCountAt ts t = some 0 := by
    intro t ht
    rw [List.mem_singleton] at ht
    subst ht
    exact ⟨hs, hz⟩
  have hmem2 := w2_invariant w ts [s]
  have hfuel2 : coveredCount ((processSurroundings (markUncovered ts [s])
      (surroundingsOf w (markUncovered ts [s]) [s])).2) < ts.length + 1 := by
    have h1 := coveredCount_le ts _ (ts2_pointwise w ts [s])
    have h2 : coveredCount ts ≤ ts.length := List.countP_le_length _
    have h3 := ts2_length w ts [s]
    omega
  have IH := clearZerosLoop_spec w (ts.length + 1) _ _ hmem2 hfuel2 j
  rw [hstep]
  constructor
  · intro hcl
    by_cases hcl2 : Close ((processSurroundings (markUncovered ts [s])
        (surroundingsOf w (markUncovered ts [s]) [s])).2) w
        ((processSurroundings (markUncovered ts [s])
          (surroundingsOf w (markUncovered ts [s]) [s])).1) j
    · rw [IH.1 hcl2]
      rcases ts2_pointwise w ts [s] j with hrel | hrel
      · rw [hrel]
      · rw [hrel, map_setU_setU]
    · rw [IH.2 hcl2]
      have hj := step_sup w ts [s] hmemAB (Or.inr hcl)
      rcases hj with hju | hjc
      · rcases Close_covered_or_seed hcl with hjw | hjcov
        · exact ts2_getElem_wk w ts [s] hjw
        · rcases ts2_pointwise w ts [s] j with hrel | hrel
          · exfalso
            rw [tileStateAt, hrel] at hju
            rw [tileStateAt] at hjcov
            rw [hju] at hjcov
            simp at hjcov
          · exact hrel
      · exact absurd hjc hcl2
  · intro hcl
    have hcl2 : ¬ Close ((processSurroundings (markUncovered ts [s])
        (surroundingsOf w (markUncovered ts [s]) [s])).2) w
        ((processSurroundings (markUncovered ts [s])
          (surroundingsOf w (markUncovered ts [s]) [s])).1) j := by
      intro hc
      rcases step_sub w ts [s] hmemAB hc with hju | hjc
      · rcases Close_covered_or_seed hc with hjw2 | hjcov2
        · have hcv := ((mem_surr_iff w ts [s]).mp
            ((mem_w2_iff w ts [s]).mp hjw2).1).2.2
          rw [hju] at hcv
          simp at hcv
        · have hcv := (ts2_covered w ts [s] hjcov2).2
          rw [hju] at hcv
          simp at hcv
      · exact hcl hjc
    rw [IH.2 hcl2]
    have hjw : j ∉ [s] := fun h => hcl (Close.seed j h)
    have hjs : j ∉ surroundingsOf w (markUncovered ts [s]) [s] :=
      fun h => hcl (surr_subset_close w ts [s] hmemAB h)
    exact ts2_getElem_untouched w ts [s] hjw hjs

/-- Marking the seed uncovered beforehand does not change the adjacency
count stored at any index. -/
theorem tileCountAt_modify_setU (ts : List Tile) (s n : Nat) :
    tileCountAt (modifyTile ts s (fun t => { t with state := State.Uncovered })) n =
      tileCountAt ts n := by
  rw [tileCountAt, tileCountAt, getElem?_modifyTile]
  split
  · next h =>
    subst h
    cases ts[s]? <;> rfl
  · rfl

/-- Marking the seed uncovered beforehand does not change the state stored
at any other index. -/
theorem tileStateAt_modify_setU_ne (ts : List Tile) (s n : Nat) (h : ¬ s = n) :
    tileStateAt (modifyTile ts s (fun t => { t with state := State.Uncovered })) n =
      tileStateAt ts n := by
  rw [tileStateAt, tileStateAt, getElem?_modifyTile, if_neg h]

/-- The flood-fill reach set from seed `s` is the same whether computed on
the original tiles or after first marking `s` uncovered: the seed is in the
set either way, and expansion through `s` uses its seed-ness, not its
state. -/
theorem Close_modify_seed (w : Nat) (ts : List Tile) (s : Nat) (j : Nat) :
    Close (modifyTile ts s (fun t => { t with state := State.Uncovered })) w [s] j ↔
      Close ts w [s] j := by
  constructor
  · intro h
    induction h with
    | seed t ht => exact Close.seed t ht
    | step t u hc hz hexp hu hcov ih =>
      by_cases hus : u = s
      · subst hus
        exact Close.seed u (List.mem_cons_self u [])
      · have hcov' : tileStateAt ts u = some State.Covered := by
          rw [← tileStateAt_modify_setU_ne ts s u (fun hh => hus hh.symm)]
          exact hcov
        have hz' : tileCountAt ts t = some 0 := by
          rw [← tileCountAt_modify_setU ts s t]
          exact hz
        have hexp' : t ∈ [s] ∨ tileStateAt ts t = some State.Covered := by
          rcases hexp with h1 | h1
          · exact Or.inl h1
          · by_cases hts : t = s
            · subst hts
              exact Or.inl (List.mem_cons_self t [])
            · refine Or.inr ?_
              rw [← tileStateAt_modify_setU_ne ts s t (fun hh => hts hh.symm)]
              exact h1
        exact Close.step t u ih hz' hexp' hu hcov'
  · intro h
    induction h with
    | seed t ht => exact Close.seed t ht
    | step t u hc hz hexp hu hcov ih =>
      by_cases hus : u = s
      · subst hus
        exact Close.seed u (List.mem_cons_self u [])
      · have hcov' : tileStateAt (modifyTile ts s
            (fun t => { t with state := State.Uncovered })) u = some State.Covered := by
          rw [tileStateAt_modify_setU_ne ts s u (fun hh => hus hh.symm)]
          exact hcov
        have hz' : tileCountAt (modifyTile ts s
            (fun t => { t with state := State.Uncovered })) t = some 0 := by
          rw [tileCountAt_modify_setU ts s t]
          exact hz
        have hexp' : t ∈ [s] ∨ tileStateAt (modifyTile ts s
            (fun t => { t with state := State.Uncovered })) t = some State.Covered := by
          rcases hexp with h1 | h1
          · exact Or.inl h1
          · by_cases hts : t = s
            · subst hts
              exact Or.inl (List.mem_cons_self t [])
            · refine Or.inr ?_
              rw [tileStateAt_modify_setU_ne ts s t (fun hh => hts hh.symm)]
              exact h1
        exact Close.step t u ih hz' hexp' hu hcov'

/-- If the trailing win check leaves the outcome unresolved it changed
nothing at all. -/
theorem Board.win_check_id {b : Board} (h : (b.win_check).won = none) :
    b.win_check = b := by
  by_cases h1 : b.won = none
  · by_cases h2 : b.flag_correct = b.mine_total ∨
      uncoverCorrect b = b.tiles.length - b.mine_total
    · exfalso
      rw [Board.win_check_wins h1 h2] at h
      cases h
    · rw [Board.win_check_eq, if_pos h1, if_neg h2]
  · rw [Board.win_check_eq, if_neg h1]

/-- Revealing an in-range, covered, mine-free tile while the game is open
runs `finish_uncover` followed by the win check. -/
theorem uncover_zero_push (b : Board) (x y r : Nat)
    (hw : b.won = none) (tile : Tile)
    (hsome : b.tiles[get_1d x y b.width]? = some tile)
    (hstile : tile.state = State.Covered)
    (hmine : tile.mine = false) :
    b.push_state x y PushState.Uncover r =
      some ((Board.finish_uncover b (get_1d x y b.width) x y).win_check) := by
  rw [Board.push_state_of_none hw]
  have hms : b.match_step x y PushState.Uncover r =
      some (Board.finish_uncover b (get_1d x y b.width) x y) := by
    simp only [Board.match_step, Board.get_tile, hsome, hstile]
    simp only [Board.uncover_tile, hsome]
    simp [hmine]
  rw [hms]
  rfl

/-- Uncovering a zero-count tile runs the flood fill from it. -/
theorem finish_uncover_zero (b : Board) (x y : Nat) (tile : Tile)
    (hsome : b.tiles[get_1d x y b.width]? = some tile)
    (hz : tile.mines_surrounding = 0) :
    Board.finish_uncover b (get_1d x y b.width) x y =
      { b with first_uncover := false,
               tiles := clearZerosLoop b.width
                 ((modifyTile b.tiles (get_1d x y b.width)
                   (fun t => { t with state := State.Uncovered })).length + 2)
                 (modifyTile b.tiles (get_1d x y b.width)
                   (fun t => { t with state := State.Uncovered }))
                 [get_1d x y b.width] } := by
  have hb1 : (modifyTile b.tiles (get_1d x y b.width)
      (fun t => { t with state := State.Uncovered }))[get_1d x y b.width]? =
      some { tile with state := State.Uncovered } := by
    rw [getElem?_modifyTile, if_pos rfl, hsome]
    rfl
  simp only [Board.finish_uncover, hb1, hz]
  simp only [Board.clear_zeros, get_1d]
  rfl

/-! ## Claim C9 -/

/-- **C9**: on a board constructed with `mine_total = 0`, the very first
command — any in-range coordinate, either action (including a `Flag`
command that changes no tile because the quota `flag_total < mine_total`
already fails) — immediately sets the outcome to `Won`, because the
post-command win check sees `flag_correct = 0 = mine_total`. -/
theorem C9_zero_mines_first_command_wins
    (w h : Nat) (mv : List Bool) (b : Board)
    (hlen : mv.length = w * h) (hcnt : mv.count true = 0)
    (hnew : Board.new w h 0 mv = Except.ok b)
    (x y : Nat) (hx : x < w) (hy : y < h) (u : PushState) (r : Nat) :
    ∃ b', b.push_state x y u r = some b' ∧ b'.won = some true := by
  obtain ⟨hM, hwon, hwidth, hmt, hft, hfc, hfu, hlen', hget⟩ := Board.new_ok hnew
  have hidx : get_1d x y w < mv.length := by
    rw [hlen]; exact get_1d_lt hx hy
  have hmv : mv[get_1d x y w]? = some false := getElem?_false_of_count hcnt hidx
  have htile : b.tiles[get_1d x y b.width]? =
      some (Tile.new false (mineTotalAt mv w (get_1d x y w))) := by
    rw [hwidth, hget, hmv]
    rfl
  have hgt : b.get_tile x y = some (Tile.new false (mineTotalAt mv w (get_1d x y w))) :=
    htile
  rw [Board.push_state_of_none hwon]
  cases u with
  | Flag =>
    have hms : b.match_step x y PushState.Flag r = some b := by
      simp only [Board.match_step, hgt, Tile.new]
      rw [if_neg (by omega : ¬ b.flag_total < b.mine_total)]
    rw [hms]
    exact ⟨_, rfl, Board.win_check_wins hwon (Or.inl (by rw [hfc, hmt]))⟩
  | Uncover =>
    have hms : b.match_step x y PushState.Uncover r = b.uncover_tile x y r := by
      simp only [Board.match_step, hgt, Tile.new]
    have hun : b.uncover_tile x y r =
        some (b.finish_uncover (get_1d x y b.width) x y) := by
      simp only [Board.uncover_tile, htile, Tile.new]
      rw [if_neg (by simp : ¬((false = true) ∧ b.first_uncover = true)),
        if_neg (by simp : ¬ false = true)]
    obtain ⟨hw1, -, hm1, -, hfc1, -⟩ :=
      Board.finish_uncover_fields b (get_1d x y b.width) x y
    rw [hms, hun]
    refine ⟨_, rfl, Board.win_check_wins ?_ (Or.inl ?_)⟩
    · rw [hw1, hwon]
    · rw [hfc1, hfc, hm1, hmt]

/-- Witness for C9: a concrete 2×1 mine-free board, first command `Flag` at
`(0,0)`, ends `Won`. -/
theorem C9_zero_mines_first_command_wins_witness :
    ∃ b', (⟨[⟨State.Covered, false, 0⟩, ⟨State.Covered, false, 0⟩],
        none, 2, 0, 0, 0, true⟩ : Board).push_state 0 0 PushState.Flag 0 = some b' ∧
      b'.won = some true :=
  C9_zero_mines_first_command_wins 2 1 [false, false] _ (by decide) (by decide)
    (by rfl) 0 0 (by decide) (by decide) PushState.Flag 0

/-! ## Claim C2 -/

/-- **C2**: on a freshly constructed board, issuing `Reveal` at any in-range
coordinate as the very first command succeeds and never produces the `Lost`
outcome (`won = some false`): a mine under the first click is relocated
rather than detonated. -/
theorem C2_first_reveal_never_lost
    (w h M : Nat) (mv : List Bool) (b : Board)
    (hlen : mv.length = w * h) (hcnt : mv.count true = M)
    (hnew : Board.new w h M mv = Except.ok b)
    (x y : Nat) (hx : x < w) (hy : y < h) (r : Nat) :
    ∃ b', b.push_state x y PushState.Uncover r = some b' ∧ b'.won ≠ some false := by
  obtain ⟨hM, hwon, hwidth, hmt, hft, hfc, hfu, hlen', hget⟩ := Board.new_ok hnew
  have hidx : get_1d x y w < mv.length := by
    rw [hlen]; exact get_1d_lt hx hy
  have hmv : mv[get_1d x y w]? = some (mv.get ⟨get_1d x y w, hidx⟩) :=
    List.getElem?_eq_getElem hidx
  have htile : b.tiles[get_1d x y b.width]? =
      some (Tile.new (mv.get ⟨get_1d x y w, hidx⟩) (mineTotalAt mv w (get_1d x y w))) := by
    rw [hwidth, hget, hmv]
    rfl
  have hgt : b.get_tile x y =
      some (Tile.new (mv.get ⟨get_1d x y w, hidx⟩) (mineTotalAt mv w (get_1d x y w))) := htile
  have hms : b.match_step x y PushState.Uncover r = b.uncover_tile x y r := by
    simp only [Board.match_step, hgt, Tile.new]
  -- the board has a safe tile, so `uncover_tile` succeeds
  obtain ⟨j, hjlt, hjv⟩ := exists_false_of_count_lt hcnt (by omega)
  have hnm : ∃ (j : Nat) (t : Tile), b.tiles[j]? = some t ∧ t.mine = false := by
    refine ⟨j, Tile.new false (mineTotalAt mv w j), ?_, rfl⟩
    rw [hget, hjv]
    rfl
  obtain ⟨b1, hb1⟩ := Board.uncover_tile_isSome r htile hnm
  have hb1won : b1.won = none := by
    rw [Board.uncover_tile_first_true_won hfu hb1, hwon]
  rw [Board.push_state_of_none hwon, hms, hb1]
  refine ⟨_, rfl, ?_⟩
  rcases Board.win_check_won_cases hb1won with hcase | hcase <;> rw [hcase] <;> simp

/-- Witness for C2: the 2×1 board with its single mine under the first
click; the reveal relocates the mine and does not lose. -/
theorem C2_first_reveal_never_lost_witness :
    ∃ b', (⟨[⟨State.Covered, true, 0⟩, ⟨State.Covered, false, 1⟩],
        none, 2, 1, 0, 0, true⟩ : Board).push_state 0 0 PushState.Uncover 0 = some b' ∧
      b'.won ≠ some false :=
  C2_first_reveal_never_lost 2 1 1 [true, false] _ (by decide) (by decide)
    (by rfl) 0 0 (by decide) (by decide) 0

/-! ## Claim C6 -/

/-- **C6 (counterexample)**: the claim that the flood fill uncovers *exactly*
the maximal connected zero-adjacency region plus its border fails when a
flag sits inside the region.  On a 4×1 board with its mine on cell 3 the
adjacency counts are `[0, 0, 1, 0]`, so cells 0 and 1 form a connected
zero region and cell 2 borders it (1 is a Moore neighbour of 0, 2 of 1).
After flagging cell 1 and then revealing cell 0, cell 1 is still `Flagged`
and cell 2 still `Covered`: the flood fill stops at the flag, so two tiles
of the region-plus-border are never uncovered. -/
theorem C6_flood_blocked_by_flag :
    ((((Board.new 4 1 1 [false, false, false, true]).toOption.bind
        (fun b0 => b0.push_state 1 0 PushState.Flag 0)).bind
      (fun b1 => b1.push_state 0 0 PushState.Uncover 0)).map
        (fun b2 => (tileStateAt b2.tiles 0, tileStateAt b2.tiles 1,
          tileStateAt b2.tiles 2)) =
      some (some State.Uncovered, some State.Flagged, some State.Covered)) ∧
    ((Board.new 4 1 1 [false, false, false, true]).toOption.map
        (fun b0 => (tileCountAt b0.tiles 0, tileCountAt b0.tiles 1,
          tileCountAt b0.tiles 2)) = some (some 0, some 0, some 1)) ∧
    1 ∈ get_1d_manhattan 0 4 ∧ 2 ∈ get_1d_manhattan 1 4 := by
  decide

/-- **C6 (amended)**: when `Reveal` hits an in-range, covered, mine-free
tile with adjacency count 0 and neither that command ends the game, the
tiles that change are exactly the `Close`-reachable set of the seed — the
least set containing the seed and closed under stepping from a zero-count
member (seed, or still covered beforehand) to a *covered* Moore neighbour.
This is the connected zero region plus its covered border, except that
reachability expands only through covered tiles, so flagged or previously
uncovered tiles block the flood (the refuted part of the original claim).
Every reachable tile is set `Uncovered` (at most once — it was covered or
the seed, and is uncovered afterwards), every other tile is bit-for-bit
unchanged, and each step's frontier list is duplicate-free. -/
theorem C6_flood_fill_amended (b : Board) (x y r : Nat) (b' : Board)
    (hw : b.won = none) (tile : Tile)
    (hsome : b.tiles[get_1d x y b.width]? = some tile)
    (hstile : tile.state = State.Covered)
    (hmine : tile.mine = false)
    (hz : tile.mines_surrounding = 0)
    (hpush : b.push_state x y PushState.Uncover r = some b')
    (hnw : b'.won = none) :
    (∀ j : Nat,
      (Close b.tiles b.width [get_1d x y b.width] j →
        b'.tiles[j]? =
          (b.tiles[j]?).map (fun t => { t with state := State.Uncovered })) ∧
      (¬ Close b.tiles b.width [get_1d x y b.width] j →
        b'.tiles[j]? = b.tiles[j]?)) ∧
    (∀ (ts : List Tile) (wk : List Nat), (surroundingsOf b.width ts wk).Nodup) := by
  have hpush2 := uncover_zero_push b x y r hw tile hsome hstile hmine
  rw [hpush2] at hpush
  injection hpush with heq
  subst heq
  have hid := Board.win_check_id hnw
  have hfin := finish_uncover_zero b x y tile hsome hz
  have htiles : ((Board.finish_uncover b (get_1d x y b.width) x y).win_check).tiles =
      clearZerosLoop b.width
        ((modifyTile b.tiles (get_1d x y b.width)
          (fun t => { t with state := State.Uncovered })).length + 2)
        (modifyTile b.tiles (get_1d x y b.width)
          (fun t => { t with state := State.Uncovered }))
        [get_1d x y b.width] := by
    rw [hid, hfin]
  have hp : get_1d x y b.width < b.tiles.length := by
    by_contra hnl
    rw [List.getElem?_eq_none (Nat.le_of_not_lt hnl)] at hsome
    cases hsome
  have hs1 : get_1d x y b.width <
      (modifyTile b.tiles (get_1d x y b.width)
        (fun t => { t with state := State.Uncovered })).length := by
    rw [modifyTile_length]
    exact hp
  have hz1 : tileCountAt (modifyTile b.tiles (get_1d x y b.width)
      (fun t => { t with state := State.Uncovered })) (get_1d x y b.width) =
      some 0 := by
    rw [tileCountAt_modify_setU, tileCountAt, hsome]
    simp [hz]
  refine ⟨fun j => ?_, fun ts wk => surroundingsOf_nodup b.width ts wk⟩
  have hcp := clearZeros_pointwise b.width
    (modifyTile b.tiles (get_1d x y b.width)
      (fun t => { t with state := State.Uncovered }))
    (get_1d x y b.width) hs1 hz1 j
  constructor
  · intro hcl
    have hcl1 := (Close_modify_seed b.width b.tiles (get_1d x y b.width) j).mpr hcl
    rw [htiles, hcp.1 hcl1, getElem?_modifyTile]
    by_cases hjs : get_1d x y b.width = j
    · rw [if_pos hjs, map_setU_setU, hjs]
    · rw [if_neg hjs]
  · intro hcl
    have hcl1 : ¬ Close (modifyTile b.tiles (get_1d x y b.width)
        (fun t => { t with state := State.Uncovered })) b.width
        [get_1d x y b.width] j :=
      fun hc => hcl ((Close_modify_seed b.width b.tiles (get_1d x y b.width) j).mp hc)
    have hjs : ¬ get_1d x y b.width = j := by
      intro h
      apply hcl
      rw [← h]
      exact Close.seed (get_1d x y b.width)
        (List.mem_cons_self (get_1d x y b.width) [])
    rw [htiles, hcp.2 hcl1, getElem?_modifyTile, if_neg hjs]

/-- **C6 (witness)**: the amended theorem applied to the concrete 6×1 board
`c6Board` (mines on 3 and 5, counts `[0, 0, 1, 0, 2, 0]`), revealing cell
`(0, 0)`: cell 2 (border of the zero region `{0, 1}`) is uncovered, and
cell 4 (outside the reach set) is untouched. -/
theorem C6_flood_fill_amended_witness :
    c6Board'.tiles[2]? =
      (c6Board.tiles[2]?).map (fun t => { t with state := State.Uncovered }) ∧
    c6Board'.tiles[4]? = c6Board.tiles[4]? := by
  have hmain := C6_flood_fill_amended c6Board 0 0 0 c6Board' rfl
    ⟨State.Covered, false, 0⟩ (by decide) rfl rfl rfl (by decide) rfl
  refine ⟨(hmain.1 2).1 ?_, (hmain.1 4).2 ?_⟩
  · have c0 : Close c6Board.tiles 6 [get_1d 0 0 6] 0 :=
      Close.seed 0 (by decide)
    have c1 : Close c6Board.tiles 6 [get_1d 0 0 6] 1 :=
      Close.step 0 1 c0 (by decide) (Or.inl (by decide)) (by decide) (by decide)
    exact Close.step 1 2 c1 (by decide) (Or.inr (by decide)) (by decide) (by decide)
  · intro h
    have hb : ∀ j : Nat, Close c6Board.tiles 6 [get_1d 0 0 6] j →
        j = 0 ∨ j = 1 ∨ j = 2 := by
      intro j hj
      induction hj with
      | seed t ht =>
        left
        have : get_1d 0 0 6 = 0 := by decide
        rw [this] at ht
        simpa using ht
      | step t u hc hz hexp hu hcov ih =>
        rcases ih with rfl | rfl | rfl
        · have hm : get_1d_manhattan 0 6 = [6, 1, 7] := by decide
          rw [hm] at hu
          have hu3 : u = 6 ∨ u = 1 ∨ u = 7 := by simpa using hu
          rcases hu3 with rfl | rfl | rfl
          · exact absurd hcov (by decide)
          · exact Or.inr (Or.inl rfl)
          · exact absurd hcov (by decide)
        · have hm : get_1d_manhattan 1 6 = [0, 6, 7, 2, 8] := by decide
          rw [hm] at hu
          have hu5 : u = 0 ∨ u = 6 ∨ u = 7 ∨ u = 2 ∨ u = 8 := by simpa using hu
          rcases hu5 with rfl | rfl | rfl | rfl | rfl
          · exact Or.inl rfl
          · exact absurd hcov (by decide)
          · exact absurd hcov (by decide)
          · exact Or.inr (Or.inr rfl)
          · exact absurd hcov (by decide)
        · exact absurd hz (by decide)
    rcases hb 4 h with h4 | h4 | h4 <;> omega

end Minesweeper
